import Mathlib

/-
  Verification development for the containers repository (romanpauk/containers).

  Shallow embedding of the containers into Lean 4:
  the lock-free containers are modelled by their single-threaded executions
  (every compare-exchange whose expected value was loaded from the current,
  uninterfered state succeeds deterministically; spin loops either pass at once
  or the operation is modelled as not terminating via Option/fuel), and the
  extendible hash table, which is single-threaded in the source, is modelled
  directly.  Machine integers (uint32_t, uint64_t, size_t) are Nat with an
  explicit % 2^32 or % 2^64 where the C++ arithmetic can wrap.

  The hazard_era_allocator header is not present under src/ (only its users
  are).  Where an allocator operation matters it is modelled from the spec:
  allocate(args...) allocates and in-place-constructs a node, protect is a
  plain load, retire defers the free (the node stays valid while referenced),
  deallocate_unsafe frees directly.  Retired and freed nodes simply remain in
  the heap lists of the models; no model ever follows a pointer to them again.
-/

def u32 : Nat := 2 ^ 32

def u64 : Nat := 2 ^ 64

/-! ## Bounded ring queue (src/include/containers/lockfree/bounded_queue.h)

State of containers::bounded_queue: four size_t cursors (consumer head/tail,
producer head/tail) and the Size-slot array.  The slot array is default
initialised in C++ (indeterminate for scalar T); the model fills it with 0,
and no theorem relies on the content of an unwritten slot beyond reporting
what the model reads there. -/

structure RingQueue where
  size : Nat
  chead : Nat
  ctail : Nat
  phead : Nat
  ptail : Nat
  values : List Nat
deriving DecidableEq

/-- A fresh containers::bounded_queue of capacity sz: all four counters are
value-initialised to zero. -/
def ringInit (sz : Nat) : RingQueue :=
  ⟨sz, 0, 0, 0, 0, List.replicate sz 0⟩

/-- Single-threaded run of bounded_queue::emplace (bounded_queue.h lines
37-61).  The CAS on phead_ succeeds because nothing interferes; the result is
none when the publish spin (ptail_ != ph) would hang, which cannot happen in a
single-threaded run from the initial state. -/
def ringPush (q : RingQueue) (v : Nat) : Option (Bool × RingQueue) :=
  let ph := q.phead
  let pn := (ph + 1) % u64
  if pn > (q.ctail + q.size) % u64 then some (false, q)
  else
    let q1 : RingQueue := { q with phead := pn, values := q.values.set (pn % q.size) v }
    if q1.ptail = ph then some (true, { q1 with ptail := pn }) else none

/-- Single-threaded run of bounded_queue::pop (bounded_queue.h lines 66-90).
The emptiness test is the source's cn > ptail_ + 1, verbatim.  The slot index
cn & (Size-1) is written cn % size (sz is a power of two in every
instantiation). -/
def ringPop (q : RingQueue) : Option (Bool × Nat × RingQueue) :=
  let ch := q.chead
  let cn := (ch + 1) % u64
  if cn > (q.ptail + 1) % u64 then some (false, 0, q)
  else
    let v := q.values.getD (cn % q.size) 0
    let q1 : RingQueue := { q with chead := cn }
    if q1.ctail = ch then some (true, v, { q1 with ctail := cn }) else none

/-! ## BBQ default block size (src/include/containers/lockfree/bounded_queue_bbq.h lines 28-33)

constexpr size_t log2(size_t value) { return value < 2 ? 1 : 1 + log2(value / 2); }
BlockSize = Size / (1 << (std::max(size_t(1), log2(Size) / 4) - 1)) -/

def cppLog2 (v : Nat) : Nat :=
  if v < 2 then 1 else 1 + cppLog2 (v / 2)
termination_by v
decreasing_by
  exact Nat.div_lt_self (by omega) (by omega)

/-- The defaulted BlockSize template argument of bounded_queue_bbq. -/
def defaultBlockSize (sz : Nat) : Nat :=
  sz / (1 <<< (max 1 (cppLog2 sz / 4) - 1))

/-! ## Bounded stack (src/include/containers/lockfree/bounded_stack.h)

containers::bounded_stack_base<T, Size, Backoff, Mark>.  A node is the 16-byte
cell (value, uint32 index, uint32 counter); top_ and the Size+1 cells of
array_ are value-initialised (all fields zero).  atomic16 (detail/atomic.h) is
a 16-byte compare-exchange that compares the whole cell, so the model compares
whole BNode values.  uint32 arithmetic wraps mod 2^32. -/

structure BNode where
  value : Nat
  index : Nat
  counter : Nat
deriving DecidableEq

structure BStack where
  size : Nat
  top : BNode
  arr : List BNode
deriving DecidableEq

def bsInit (sz : Nat) : BStack :=
  ⟨sz, ⟨0, 0, 0⟩, List.replicate (sz + 1) ⟨0, 0, 0⟩⟩

/-- bounded_stack_base::finish (bounded_stack.h lines 100-106): load
array_[n.index], build the expected cell (top.value, n.index, n.counter - 1)
and compare-exchange it to (n.value, n.index, n.counter).  The 16-byte CAS
succeeds iff the stored cell equals the expected cell. -/
def bsFinish (s : BStack) (n : BNode) : BStack :=
  let a := s.arr.getD n.index ⟨0, 0, 0⟩
  let expected : BNode := ⟨a.value, n.index, (n.counter + (u32 - 1)) % u32⟩
  if a = expected then
    { s with arr := s.arr.set n.index ⟨n.value, n.index, n.counter⟩ }
  else s

/-- Single-threaded run of bounded_stack_base::push (bounded_stack.h lines
48-68).  Mark = 0 disables the seal test exactly like the C++ Mark && ... ;
array_.size() - 1 is size.  The top_ CAS succeeds (no interference). -/
def bsPush (mark : Nat) (s : BStack) (v : Nat) : Bool × BStack :=
  let top := s.top
  if mark ≠ 0 ∧ top.index = mark then (false, s)
  else if top.index = s.size then (false, s)
  else
    let s1 := bsFinish s top
    let aboveTopCounter := (s1.arr.getD (top.index + 1) ⟨0, 0, 0⟩).counter
    (true, { s1 with top := ⟨v, top.index + 1, (aboveTopCounter + 1) % u32⟩ })

/-- Single-threaded run of bounded_stack_base::pop (bounded_stack.h lines
70-95).  On success the returned value is the old top.value. -/
def bsPop (mark : Nat) (s : BStack) : Bool × Nat × BStack :=
  let top := s.top
  if mark ≠ 0 ∧ top.index = mark then (false, 0, s)
  else if top.index = 0 then (false, 0, s)
  else
    let s1 := bsFinish s top
    let belowTop := s1.arr.getD (top.index - 1) ⟨0, 0, 0⟩
    (true, top.value, { s1 with top := ⟨belowTop.value, top.index - 1, (belowTop.counter + 1) % u32⟩ })

/-- Push a list of values in order, collecting the returned booleans. -/
def bsPushSeq (mark : Nat) (s : BStack) : List Nat → List Bool × BStack
  | [] => ([], s)
  | v :: vs =>
    let r := bsPush mark s v
    let rest := bsPushSeq mark r.2 vs
    (r.1 :: rest.1, rest.2)

/-- Pop n times, collecting the (ok, value) results in order. -/
def bsPopSeq (mark : Nat) (s : BStack) : Nat → List (Bool × Nat) × BStack
  | 0 => ([], s)
  | n + 1 =>
    let r := bsPop mark s
    let rest := bsPopSeq mark r.2.2 n
    ((r.1, r.2.1) :: rest.1, rest.2)

/-! ## Unbounded blocked stack (src/include/containers/lockfree/unbounded_stack.h lines 115-224)

containers::unbounded_blocked_stack: a linked list of nodes, each holding an
inner bounded_stack_base<T, 128, Backoff, -1> and a next pointer.  Nodes live
in a heap list indexed by allocation order; head_ is an optional index.  The
sentinel Mark is (uint32_t)-1. -/

def blkMark : Nat := u32 - 1

structure BlkNode where
  next : Option Nat
  stack : BStack
deriving DecidableEq

structure BlkStack where
  nodes : List BlkNode
  head : Option Nat
deriving DecidableEq

/-- Fresh unbounded_blocked_stack with inner capacity bsz: the constructor
allocates one empty block. -/
def blkInit (bsz : Nat) : BlkStack :=
  ⟨[⟨none, bsInit bsz⟩], some 0⟩

/-- Single-threaded run of unbounded_blocked_stack::emplace (unbounded_stack.h
lines 145-166), with fuel counting loop iterations; none means the loop did
not return within the given fuel.  In the branch taken when the inner push
fails on an unsealed block, the code allocates a fresh node (whose next field
is value-initialised to null) and runs
head_.compare_exchange_strong(head->next, head): the expected value is the
fresh node's null next, so the CAS succeeds only if head_ is null; otherwise
the fresh node is freed with deallocate_unsafe and the loop retries. -/
def blkEmplaceLoop (bsz v : Nat) : Nat → BlkStack → Option BlkStack
  | 0, _ => none
  | fuel + 1, s =>
    match s.head with
    | none => none
    | some hd =>
      let nd := s.nodes.getD hd ⟨none, bsInit 0⟩
      let top := nd.stack.top
      let r := bsPush blkMark nd.stack v
      let s1 : BlkStack := { s with nodes := s.nodes.set hd { nd with stack := r.2 } }
      if r.1 then some s1
      else if top.index = blkMark then
        blkEmplaceLoop bsz v fuel { s1 with head := nd.next }
      else
        let fresh : BlkNode := ⟨none, bsInit bsz⟩
        if s1.head = none then
          blkEmplaceLoop bsz v fuel
            { s1 with nodes := s1.nodes ++ [fresh], head := some s1.nodes.length }
        else
          blkEmplaceLoop bsz v fuel s1

/-! ## Unbounded Treiber stack (src/include/containers/lockfree/unbounded_stack.h lines 22-105)

containers::unbounded_stack.  Nodes live in a heap list indexed by allocation
order; retired nodes stay in the list (the hazard-era allocator defers the
free) but are no longer reachable from head_. -/

structure UNode where
  next : Option Nat
  value : Nat
deriving DecidableEq

structure UStack where
  nodes : List UNode
  head : Option Nat
deriving DecidableEq

def usInit : UStack := ⟨[], none⟩

/-- Single-threaded run of unbounded_stack::emplace (lines 49-55): allocate a
node whose next is the current head_, then the Treiber CAS succeeds on the
first attempt. -/
def usPush (s : UStack) (v : Nat) : UStack :=
  ⟨s.nodes ++ [⟨s.head, v⟩], some s.nodes.length⟩

/-- Single-threaded run of unbounded_stack::pop (lines 60-81): protect head_;
if null return false, else the CAS to head->next succeeds, the value is moved
out and the node retired. -/
def usPop (s : UStack) : Bool × Nat × UStack :=
  match s.head with
  | none => (false, 0, s)
  | some hd =>
    let nd := s.nodes.getD hd ⟨none, 0⟩
    (true, nd.value, { s with head := nd.next })

/-- unbounded_stack::empty (unbounded_stack.h line 83):
bool empty() const { return head_.load(std::memory_order_relaxed); } —
the head pointer converted to bool. -/
def usEmpty (s : UStack) : Bool := s.head.isSome

/-- The values reachable from head_ along next pointers (fuel-bounded walk). -/
def usChain (nodes : List UNode) : Nat → Option Nat → List Nat
  | _, none => []
  | 0, some _ => []
  | fuel + 1, some i =>
    let nd := nodes.getD i ⟨none, 0⟩
    nd.value :: usChain nodes fuel nd.next

/-- The elements the stack currently holds. -/
def usElems (s : UStack) : List Nat := usChain s.nodes s.nodes.length s.head

inductive UOp where
  | push (v : Nat)
  | pop
deriving DecidableEq

def usStep (s : UStack) : UOp → UStack
  | .push v => usPush s v
  | .pop => (usPop s).2.2

/-- Run a sequence of push/pop operations from the fresh stack. -/
def usRun (ops : List UOp) : UStack := ops.foldl usStep usInit

/-! ## Michael-Scott unbounded queue (src/include/containers/lockfree/unbounded_queue.h)

containers::unbounded_queue.  Nodes live in a heap list indexed by allocation
order; head_ always points at the current dummy node.  The constructor
allocates the initial dummy with default-constructed value (modelled 0). -/

structure QNode where
  next : Option Nat
  value : Nat
deriving DecidableEq

structure MSQueue where
  nodes : List QNode
  head : Nat
  tail : Nat
deriving DecidableEq

def msInit : MSQueue := ⟨[⟨none, 0⟩], 0, 0⟩

/-- Single-threaded run of the unbounded_queue::emplace loop (lines 56-84) for
an already-allocated node nid, with fuel counting iterations.  Each protect
re-reads the uninterfered state, so tail == tail_.load() always holds; when
tail->next is null the CAS on it succeeds and so does the following tail_
CAS, otherwise the helper CAS swings tail_ to next and the loop retries. -/
def msEnqLoop (nid : Nat) : Nat → MSQueue → Option MSQueue
  | 0, _ => none
  | fuel + 1, s =>
    let t := s.tail
    let nd := s.nodes.getD t ⟨none, 0⟩
    match nd.next with
    | none => some { s with nodes := s.nodes.set t { nd with next := some nid }, tail := nid }
    | some x => msEnqLoop nid fuel { s with tail := x }

/-- unbounded_queue::emplace: allocate the node (next = null, the constructed
value), then run the loop. -/
def msEnq (s : MSQueue) (v : Nat) : Option MSQueue :=
  let nid := s.nodes.length
  msEnqLoop nid (s.nodes.length + 2) { s with nodes := s.nodes ++ [⟨none, v⟩] }

/-- Single-threaded run of the unbounded_queue::pop loop (lines 89-122) with
fuel.  head == head_.load() always holds; if head equals tail and next is
null the queue is empty; if head differs from tail the code reads next->value
(none here would be a null dereference, modelled as none) and the head_ CAS
succeeds, retiring the old dummy. -/
def msPopLoop : Nat → MSQueue → Option (Bool × Nat × MSQueue)
  | 0, _ => none
  | fuel + 1, s =>
    let h := s.head
    let nd := s.nodes.getD h ⟨none, 0⟩
    let t := s.tail
    if h = t then
      match nd.next with
      | none => some (false, 0, s)
      | some x => msPopLoop fuel { s with tail := x }
    else
      match nd.next with
      | none => none
      | some x => some (true, (s.nodes.getD x ⟨none, 0⟩).value, { s with head := x })

def msPop (s : MSQueue) : Option (Bool × Nat × MSQueue) :=
  msPopLoop (s.nodes.length + 2) s

/-- Push a whole list in order (none if some emplace loop failed to finish). -/
def msEnqSeq (s : MSQueue) : List Nat → Option MSQueue
  | [] => some s
  | v :: vs => (msEnq s v).bind fun s1 => msEnqSeq s1 vs

/-- Pop n times, collecting the (ok, value) results in order. -/
def msPopSeq (s : MSQueue) : Nat → Option (List (Bool × Nat) × MSQueue)
  | 0 => some ([], s)
  | n + 1 =>
    (msPop s).bind fun r =>
      (msPopSeq r.2.2 n).map fun pr => ((r.1, r.2.1) :: pr.1, pr.2)

/-! ## BBQ cursors (src/include/containers/lockfree/queue.h lines 197-464)

containers::bounded_queue_bbq, MPMC layout: an array of Size/BlockSize blocks,
each with four packed 64-bit cursors (allocated, committed, reserved,
consumed), plus the global packed cursors phead_ and chead_.  A packed cursor
is version << 32 | offset; uint64 arithmetic wraps mod 2^64. -/

structure BBQBlock where
  allocated : Nat
  committed : Nat
  reserved : Nat
  consumed : Nat
deriving DecidableEq

structure BBQState where
  blocks : List BBQBlock
  phead : Nat
  chead : Nat
deriving DecidableEq

/-- Cursor(offset, version): (uint64_t)version << 32 | offset. -/
def mkCursor (off ver : Nat) : Nat := (ver % u32) * u32 + off % u32

/-- fetch_add(1) on a packed 64-bit cursor. -/
def fetchAdd1 (c : Nat) : Nat := (c + 1) % u64

/-- Resulting cell content of atomic_fetch_max_explicit (queue.h lines
371-381): load t, and while max(v, t) != t try to CAS t to v; the cell ends
up holding max of old value and v. -/
def fetchMaxVal (c v : Nat) : Nat := max c v

def bbqBlockZero : BBQBlock := ⟨0, 0, 0, 0⟩

/-- Apply f to block b of the state (writes to an out-of-range index leave the
list unchanged; the source always indexes mod the block count). -/
def setBlock (s : BBQState) (b : Nat) (f : BBQBlock → BBQBlock) : BBQState :=
  { s with blocks := s.blocks.set b (f (s.blocks.getD b bbqBlockZero)) }

/-- Every write any bounded_queue_bbq operation performs on a cursor, as an
interleaving-level step relation.  Values the acting thread read earlier
(block index, observed offsets and versions) are arbitrary parameters:
  - allocEntry: allocated.fetch_add(1) in allocate_entry (line 269);
  - commitEntry: committed.fetch_add(1) in commit_entry (line 278);
  - reserveEntry: the fetch_max on reserved in reserve_entry (line 299);
  - consumeEntry: consumed.fetch_add(1) in consume_entry (line 315);
  - advancePhead: the two fetch_max calls on the next block's committed and
    allocated plus the fetch_max on phead_ (lines 339-346);
  - advanceChead: the fetch_max calls on the next block's consumed and
    reserved plus the fetch_max on chead_ (lines 356-367). -/
inductive BBQStep : BBQState → BBQState → Prop
  | allocEntry (s : BBQState) (b : Nat) :
      BBQStep s (setBlock s b fun blk => { blk with allocated := fetchAdd1 blk.allocated })
  | commitEntry (s : BBQState) (b : Nat) :
      BBQStep s (setBlock s b fun blk => { blk with committed := fetchAdd1 blk.committed })
  | reserveEntry (s : BBQState) (b off ver : Nat) :
      BBQStep s (setBlock s b fun blk =>
        { blk with reserved := fetchMaxVal blk.reserved (mkCursor (off + 1) ver) })
  | consumeEntry (s : BBQState) (b : Nat) :
      BBQStep s (setBlock s b fun blk => { blk with consumed := fetchAdd1 blk.consumed })
  | advancePhead (s : BBQState) (b hv off ver2 : Nat) :
      BBQStep s
        { (setBlock s b fun blk =>
            { blk with
              committed := fetchMaxVal blk.committed (mkCursor 0 (hv + 1)),
              allocated := fetchMaxVal blk.allocated (mkCursor 0 (hv + 1)) }) with
          phead := fetchMaxVal s.phead (mkCursor (off + 1) ver2) }
  | advanceChead (s : BBQState) (b hv off ver2 : Nat) :
      BBQStep s
        { (setBlock s b fun blk =>
            { blk with
              consumed := fetchMaxVal blk.consumed (mkCursor 0 (hv + 1)),
              reserved := fetchMaxVal blk.reserved (mkCursor 0 (hv + 1)) }) with
          chead := fetchMaxVal s.chead (mkCursor (off + 1) ver2) }

/-- Componentwise order on the four packed cursors of a block. -/
def blockLe (a b : BBQBlock) : Prop :=
  a.allocated ≤ b.allocated ∧ a.committed ≤ b.committed ∧
  a.reserved ≤ b.reserved ∧ a.consumed ≤ b.consumed

instance : DecidablePred fun p : BBQBlock × BBQBlock => blockLe p.1 p.2 := by
  intro p
  unfold blockLe
  infer_instance

/-- No fetch-add target sits at the 64-bit wrap point 2^64 - 1 (where the C++
uint64_t increment would wrap around to 0). -/
def bbqNoSat (s : BBQState) : Prop :=
  ∀ blk ∈ s.blocks, blk.allocated < u64 - 1 ∧ blk.committed < u64 - 1 ∧ blk.consumed < u64 - 1

instance (s : BBQState) : Decidable (bbqNoSat s) := by
  unfold bbqNoSat
  infer_instance

/-- Concrete two-block state for the monotonicity witness. -/
def bbqW : BBQState := ⟨[bbqBlockZero, bbqBlockZero], 0, 0⟩

/-- bbqW after one commit_entry fetch-add on block 0. -/
def bbqW2 : BBQState := setBlock bbqW 0 fun blk => { blk with committed := fetchAdd1 blk.committed }

/-! ## Extendible hash table (src/include/containers/eh/eh.h)

containers::eh_hash_table<Key, Hash = H<Key>, PageSize = 256> with
fixed_hash_table2<Key, 256> pages.  Keys and hashes are uint64 (Nat mod 2^64).
Pages are heap objects shared by several directory entries, modelled by an
association list from page id to page; the directory is the list of page ids.
The statistics counters of fixed_hash_table2 (fastpath_, slowpath_, ...) do
not influence behaviour and are omitted. -/

/-- Multiplier of the default hash functor H (eh.h lines 35-43):
h = value * 0xc4ceb9fe1a85ec53 (uint64). -/
def ehHash (k : Nat) : Nat := k * 0xc4ceb9fe1a85ec53 % u64

/-- The eight bytes of a uint64 hash in memory order (little endian), the
order in which the fixed_hash_table2 fast path probes them. -/
def hashBytes (h : Nat) : List Nat :=
  [h % 2 ^ 8, h / 2 ^ 8 % 2 ^ 8, h / 2 ^ 16 % 2 ^ 8, h / 2 ^ 24 % 2 ^ 8,
   h / 2 ^ 32 % 2 ^ 8, h / 2 ^ 40 % 2 ^ 8, h / 2 ^ 48 % 2 ^ 8, h / 2 ^ 56 % 2 ^ 8]

/-- eh_hash_table::keyindex (eh.h lines 257-265): byte swap of the 64-bit
hash. -/
def bswap64 (h : Nat) : Nat :=
  h % 2 ^ 8 * 2 ^ 56 + h / 2 ^ 8 % 2 ^ 8 * 2 ^ 48 + h / 2 ^ 16 % 2 ^ 8 * 2 ^ 40 +
  h / 2 ^ 24 % 2 ^ 8 * 2 ^ 32 + h / 2 ^ 32 % 2 ^ 8 * 2 ^ 24 + h / 2 ^ 40 % 2 ^ 8 * 2 ^ 16 +
  h / 2 ^ 48 % 2 ^ 8 * 2 ^ 8 + h / 2 ^ 56 % 2 ^ 8

/-- PageSize: the default 256 (fixed_hash_table2 requires at least 256). -/
def ehP : Nat := 256

structure FixedTable where
  size : Nat
  values : List Nat
deriving DecidableEq

def ftInit : FixedTable := ⟨0, List.replicate ehP 0⟩

/-- One probe walk of fixed_hash_table2::insert (eh.h lines 98-134) over a
list of candidate slot indices: the first empty slot receives the key (and
size_ grows), a slot already holding the key returns true without a write,
otherwise keep probing. -/
def ftProbeIns (t : FixedTable) (key : Nat) : List Nat → Option (Bool × FixedTable)
  | [] => none
  | i :: is =>
    if t.values.getD i 0 = 0 then some (true, ⟨t.size + 1, t.values.set i key⟩)
    else if t.values.getD i 0 = key then some (true, t)
    else ftProbeIns t key is

/-- The slow-path probe sequence (hash + i) & (N - 1) for i < N, with the
power-of-two mask written % ehP. -/
def ftSlowIdx (h : Nat) : List Nat :=
  (List.range ehP).map fun i => (h + i) % ehP

/-- fixed_hash_table2::insert: fast path over the hash bytes, then the linear
probe slow path; false only when all N slots are occupied by other keys. -/
def ftInsert (t : FixedTable) (key h : Nat) : Bool × FixedTable :=
  match ftProbeIns t key (hashBytes h) with
  | some r => r
  | none =>
    match ftProbeIns t key (ftSlowIdx h) with
    | some r => r
    | none => (false, t)

/-- One probe walk of fixed_hash_table2::get_index (eh.h lines 136-152): the
first slot holding the key, if any. -/
def ftProbeGet (t : FixedTable) (key : Nat) : List Nat → Option Nat
  | [] => none
  | i :: is =>
    if t.values.getD i 0 = key then some i else ftProbeGet t key is

/-- fixed_hash_table2::get_index: fast path over the hash bytes, then the
linear slow path; values_.size() = 256 reports a miss. -/
def ftGetIndex (t : FixedTable) (key h : Nat) : Nat :=
  match ftProbeGet t key (hashBytes h) with
  | some i => i
  | none =>
    match ftProbeGet t key (ftSlowIdx h) with
    | some i => i
    | none => ehP

structure EHPage where
  depth : Nat
  refs : Nat
  table : FixedTable
deriving DecidableEq

def ehPageDefault : EHPage := ⟨0, 0, ftInit⟩

/-- The heap of live pages: an association list from page id to page.
Directory entries are page ids into this heap. -/
abbrev EHStore := List (Nat × EHPage)

/-- Dereference a page pointer. -/
def storeGet : EHStore → Nat → EHPage
  | [], _ => ehPageDefault
  | e :: st, i => if e.1 = i then e.2 else storeGet st i

/-- Mutate the page object with id i in place. -/
def storeMap (st : EHStore) (i : Nat) (f : EHPage → EHPage) : EHStore :=
  st.map fun e => if e.1 = i then (e.1, f e.2) else e

def incRef (st : EHStore) (i : Nat) : EHStore :=
  storeMap st i fun p => { p with refs := p.refs + 1 }

def decRef (st : EHStore) (i : Nat) : EHStore :=
  storeMap st i fun p => { p with refs := p.refs - 1 }

/-- delete p: drop the page object from the heap. -/
def storeRemove (st : EHStore) (i : Nat) : EHStore :=
  st.filter fun e => !(e.1 == i)

structure EHTable where
  depth : Nat
  dir : List Nat
  store : EHStore
  nextId : Nat
deriving DecidableEq

/-- The eh_hash_table constructor (eh.h lines 268-276): one empty page with
one directory reference. -/
def ehInit : EHTable := ⟨0, [0], [(0, ⟨0, 1, ftInit⟩)], 1⟩

/-- eh_hash_table::pageindex (eh.h lines 253-255):
hash & ((1ull << depth_) - 1), the power-of-two mask written % 2^depth. -/
def ehPageIndex (depth h : Nat) : Nat := h % 2 ^ depth

/-- Test (x & high_bit) for the single-bit mask high_bit = 2^d, written via
division: the bit is set iff x / high_bit is odd. -/
def ehHighBitSet (x high : Nat) : Bool := x / high % 2 = 1

/-- The directory-doubling loop (eh.h lines 292-298): each page pointed to by
the lower half gains one reference per copied entry. -/
def bumpRefs (st : EHStore) (pids : List Nat) : EHStore :=
  pids.foldl incRef st

/-- The split rehash loop (eh.h lines 305-311): every non-zero key of the old
page is inserted into p1 when pageindex(Hash(v)) & high_bit is set, else into
p0 (the insert result is discarded, as in the source). -/
def ehRehash (gdepth high : Nat) : List Nat → FixedTable × FixedTable → FixedTable × FixedTable
  | [], r => r
  | v :: vs, r =>
    if v = 0 then ehRehash gdepth high vs r
    else
      let vh := ehHash v
      if ehHighBitSet (ehPageIndex gdepth vh) high then
        ehRehash gdepth high vs (r.1, (ftInsert r.2 v (bswap64 vh)).2)
      else
        ehRehash gdepth high vs ((ftInsert r.1 v (bswap64 vh)).2, r.2)

/-- Index sequence of the directory-update loop (eh.h line 313):
for (i = kh & (high_bit - 1); i < pages_.size(); i += high_bit), written with
structural fuel: the loop executes at most len iterations (the index grows by
high >= 1 each time), so fuel len + 1 never runs out. -/
def dirIndicesAux (high : Nat) : Nat → Nat → Nat → List Nat
  | 0, _, _ => []
  | fuel + 1, r, len =>
    if 0 < high ∧ r < len then r :: dirIndicesAux high fuel (r + high) len else []

def dirIndices (high r len : Nat) : List Nat :=
  dirIndicesAux high (len + 1) r len

/-- Body of the directory-update loop (eh.h lines 313-321): drop the old
entry's reference, repoint the entry at p1 or p0 by the high bit of the index,
and take a reference on the new target. -/
def ehReassign (high pid0 pid1 : Nat) : List Nat → List Nat × EHStore → List Nat × EHStore
  | [], r => r
  | i :: is, r =>
    let old := r.1.getD i 0
    let st1 := decRef r.2 old
    let newPid := if ehHighBitSet i high then pid1 else pid0
    ehReassign high pid0 pid1 is (r.1.set i newPid, incRef st1 newPid)

/-- eh_hash_table::insert (eh.h lines 287-328).  When the target page is at or
above the 3/4 occupancy threshold the page is split (doubling the directory
first if its local depth equals the global depth) and the old page deleted;
note the split path never inserts the key itself.  Below the threshold the key
goes into the page via fixed_hash_table2::insert. -/
def ehInsert (s : EHTable) (key : Nat) : EHTable :=
  let kh := ehHash key
  let pid := s.dir.getD (ehPageIndex s.depth kh) 0
  let p := storeGet s.store pid
  if p.table.size ≥ ehP * 3 / 4 then
    let s1 : EHTable :=
      if p.depth = s.depth then
        { s with depth := s.depth + 1, dir := s.dir ++ s.dir, store := bumpRefs s.store s.dir }
      else s
    let high := 2 ^ p.depth
    let t01 := ehRehash s1.depth high p.table.values (ftInit, ftInit)
    let pid0 := s1.nextId
    let pid1 := s1.nextId + 1
    let st2 := s1.store ++ [(pid0, ⟨p.depth + 1, 0, t01.1⟩), (pid1, ⟨p.depth + 1, 0, t01.2⟩)]
    let ds := ehReassign high pid0 pid1 (dirIndices high (kh % high) s1.dir.length) (s1.dir, st2)
    { depth := s1.depth, dir := ds.1, store := storeRemove ds.2 pid, nextId := s1.nextId + 2 }
  else
    { s with
      store := storeMap s.store pid fun q =>
        { q with table := (ftInsert q.table key (bswap64 kh)).2 } }

/-- eh_hash_table::get (eh.h lines 330-334). -/
def ehGet (s : EHTable) (key : Nat) : Nat :=
  let kh := ehHash key
  let p := storeGet s.store (s.dir.getD (ehPageIndex s.depth kh) 0)
  ftGetIndex p.table key (bswap64 kh)

def ehInsertSeq (s : EHTable) (ks : List Nat) : EHTable :=
  ks.foldl ehInsert s

/-- The page object a directory entry points at. -/
def ehPageAt (s : EHTable) (i : Nat) : EHPage :=
  storeGet s.store (s.dir.getD i 0)

/-- Number of directory entries pointing at page id x. -/
def dirCount (dir : List Nat) (x : Nat) : Nat :=
  ((List.range dir.length).filter fun j => dir.getD j 0 = x).length

/-- Sum of the reference counts of all live pages. -/
def refsSum (st : EHStore) : Nat :=
  (st.map fun e => e.2.refs).sum

/-- Inverse of the H multiplier mod 2^64, used to build keys with prescribed
hashes for the concrete insert-then-lookup run. -/
def c1Minv : Nat := 11291846944257947611

/-- 192 keys whose hashes are 1*2^56 .. 192*2^56 (so each lands in a distinct
page slot on the first fast-path probe and fills page 0 exactly to the 3/4
threshold), followed by the key 1, whose insert hits the threshold and splits
the page. -/
def c1Keys : List Nat :=
  ((List.range 192).map fun j => (j + 1) * 2 ^ 56 * c1Minv % u64) ++ [1]

/-! ## Invariant predicates and witness states -/

/-- A blocked stack whose single head block is full (top index equals the
inner capacity 128) and not sealed: the witness state for the non-terminating
push. -/
def blkFull : BlkStack :=
  ⟨[⟨none, ⟨128, ⟨0, 128, 0⟩, List.replicate 129 ⟨0, 0, 0⟩⟩⟩], some 0⟩

/-- Well-formedness of the Treiber stack heap: the head pointer and every next
pointer stay inside the allocated heap. -/
def usWf (s : UStack) : Prop :=
  (∀ i, s.head = some i → i < s.nodes.length) ∧
  (∀ j k, j < s.nodes.length → (s.nodes.getD j ⟨none, 0⟩).next = some k → k < s.nodes.length)

/-- The chain of node ids reachable from node i by next pointers in the
MS-queue heap: ids strictly increase (nodes are linked in allocation order)
and the last node's next is null. -/
inductive MSChain (nodes : List QNode) : Nat → List Nat → Prop
  | nil (i : Nat) (hi : i < nodes.length)
      (hnext : (nodes.getD i ⟨none, 0⟩).next = none) : MSChain nodes i []
  | cons (i j : Nat) (ids : List Nat) (hi : i < nodes.length) (hij : i < j)
      (hnext : (nodes.getD i ⟨none, 0⟩).next = some j)
      (hrest : MSChain nodes j ids) : MSChain nodes i (j :: ids)

/-- Abstraction relation for the MS queue: the queue currently holds the
values vs, read along the chain hanging off the dummy node head_, and tail_
points at the last chain node. -/
def MSAbs (s : MSQueue) (vs : List Nat) : Prop :=
  ∃ ids, MSChain s.nodes s.head ids ∧ s.tail = ids.getLastD s.head ∧
    vs = ids.map fun j => (s.nodes.getD j ⟨none, 0⟩).value

/-- Structural invariant of the extendible hash table tying the directory, the
page heap and the reference counts together. -/
structure EHInv (s : EHTable) : Prop where
  hlen : s.dir.length = 2 ^ s.depth
  hnodup : (s.store.map Prod.fst).Nodup
  hfresh : ∀ e ∈ s.store, e.1 < s.nextId
  hlive : ∀ i, i < s.dir.length → ∃ p, (s.dir.getD i 0, p) ∈ s.store
  hdepth : ∀ e ∈ s.store, e.2.depth ≤ s.depth
  href : ∀ e ∈ s.store, ∃ i, i < s.dir.length ∧ s.dir.getD i 0 = e.1
  hrefs : ∀ e ∈ s.store, e.2.refs = s.dir.count e.1
  hpat : ∀ i, i < s.dir.length → ∀ j, j < s.dir.length →
    (s.dir.getD j 0 = s.dir.getD i 0 ↔
      j % 2 ^ (ehPageAt s i).depth = i % 2 ^ (ehPageAt s i).depth)

/-! ## Helper lemmas -/

theorem list_getD_set_self {α : Type} (l : List α) (i : Nat) (a d : α) (h : i < l.length) :
    (l.set i a).getD i d = a := by
  rw [List.getD_eq_getElem _ _ (by simpa using h), List.getElem_set_self]

theorem list_getD_set_ne {α : Type} (l : List α) (i j : Nat) (a d : α) (h : i ≠ j) :
    (l.set i a).getD j d = l.getD j d := by
  rcases Nat.lt_or_ge j l.length with hj | hj
  · rw [List.getD_eq_getElem _ _ (by simpa using hj), List.getD_eq_getElem _ _ hj,
      List.getElem_set_ne h]
  · rw [List.getD_eq_default _ _ (by simpa using hj), List.getD_eq_default _ _ hj]

theorem list_set_getD_self {α : Type} (l : List α) (i : Nat) (d : α) :
    l.set i (l.getD i d) = l := by
  induction l generalizing i with
  | nil => rfl
  | cons a t ih =>
    cases i with
    | zero => simp
    | succ n =>
      have h1 : (a :: t).set (n + 1) ((a :: t).getD (n + 1) d) = a :: t.set n (t.getD n d) := rfl
      rw [h1, ih n]

/-! ## C2: pop on an empty bounded ring queue -/

/-- C2: the claim says pop returns false whenever ch equals pt (all pushed
values already popped) and that the claim step increments ch only when
ch < pt.  On the fresh capacity-4 queue ch = pt = 0, yet the source's test
cn > ptail_ + 1 lets the pop through: it claims the slot (chead becomes 1),
reads the unwritten slot 1 and returns true. -/
theorem C2_pop_on_empty_returns_true :
    (ringInit 4).chead = (ringInit 4).ptail ∧
    ringPop (ringInit 4) = some (true, 0, ⟨4, 1, 1, 0, 0, [0, 0, 0, 0]⟩) := by
  decide

/-! ## C3: bounded stack E1 trace -/

/-- C3: the claim (spec scenario E1) expects push 1,2,3,4 to succeed, push 5
to fail and the pops to return (true,4), (true,3), (true,2), (true,1),
(false,_).  In the source the array cells are value-initialised with index 0,
so finish's expected cell (value, n.index, n.counter-1) never matches a cell
whose stored index is still 0: no push's value is ever published to the
array, and every pop below the top returns the stale zero cell.  The actual
trace pops (true,4), (true,0), (true,0), (true,0), (false,_). -/
theorem C3_bounded_stack_trace_loses_values :
    (bsPushSeq 0 (bsInit 4) [1, 2, 3, 4, 5]).1 = [true, true, true, true, false] ∧
    (bsPopSeq 0 (bsPushSeq 0 (bsInit 4) [1, 2, 3, 4, 5]).2 5).1 =
      [(true, 4), (true, 0), (true, 0), (true, 0), (false, 0)] := by
  decide

/-! ## C4: push on a full head block never terminates -/

theorem blkEmplaceLoop_step (bsz v n hd : Nat) (nodes : List BlkNode)
    (hfull : (nodes.getD hd ⟨none, bsInit 0⟩).stack.top.index =
      (nodes.getD hd ⟨none, bsInit 0⟩).stack.size)
    (hmark : (nodes.getD hd ⟨none, bsInit 0⟩).stack.top.index ≠ blkMark) :
    blkEmplaceLoop bsz v (n + 1) ⟨nodes, some hd⟩ =
      blkEmplaceLoop bsz v n ⟨nodes, some hd⟩ := by
  have h1 : ¬(blkMark ≠ 0 ∧ (nodes.getD hd ⟨none, bsInit 0⟩).stack.top.index = blkMark) :=
    fun hc => hmark hc.2
  have hpush : bsPush blkMark (nodes.getD hd ⟨none, bsInit 0⟩).stack v =
      (false, (nodes.getD hd ⟨none, bsInit 0⟩).stack) := by
    simp only [bsPush]
    rw [if_neg h1, if_pos hfull]
  have hset : nodes.set hd
      ⟨(nodes.getD hd ⟨none, bsInit 0⟩).next, (nodes.getD hd ⟨none, bsInit 0⟩).stack⟩ = nodes :=
    list_set_getD_self nodes hd ⟨none, bsInit 0⟩
  simp only [blkEmplaceLoop, hpush, hset]
  rw [if_neg (by simp : ¬((false : Bool) = true)), if_neg hmark,
    if_neg (by simp : ¬(some hd = (none : Option Nat)))]

/-- C4: the claim says a push that finds the head block full allocates a
fresh head whose next equals the current head, CASes the outer head to it
and (on CAS failure) frees it and retries, so a single-threaded push always
terminates.  In the source the fresh node's next is value-initialised to
null and head_.compare_exchange_strong(head->next, head) therefore compares
head_ against null; head_ is never null, so the CAS always fails, the node is
freed and the loop repeats without ever changing the state: the push loop
does not return within any finite number of iterations. -/
theorem C4_push_on_full_block_never_returns (bsz v fuel hd : Nat) (s : BlkStack)
    (hh : s.head = some hd)
    (hfull : (s.nodes.getD hd ⟨none, bsInit 0⟩).stack.top.index =
      (s.nodes.getD hd ⟨none, bsInit 0⟩).stack.size)
    (hmark : (s.nodes.getD hd ⟨none, bsInit 0⟩).stack.top.index ≠ blkMark) :
    blkEmplaceLoop bsz v fuel s = none := by
  obtain ⟨nodes, head⟩ := s
  simp only at hh hfull hmark
  subst hh
  induction fuel with
  | zero => rfl
  | succ n ih => rw [blkEmplaceLoop_step bsz v n hd nodes hfull hmark]; exact ih

/-- Witness for C4 at the concrete full, unsealed one-block state blkFull. -/
theorem C4_witness :
    blkFull.head = some 0 ∧
    (blkFull.nodes.getD 0 ⟨none, bsInit 0⟩).stack.top.index =
      (blkFull.nodes.getD 0 ⟨none, bsInit 0⟩).stack.size ∧
    (blkFull.nodes.getD 0 ⟨none, bsInit 0⟩).stack.top.index ≠ blkMark ∧
    blkEmplaceLoop 128 7 1000 blkFull = none :=
  ⟨rfl, by decide, by decide,
    C4_push_on_full_block_never_returns 128 7 1000 0 blkFull rfl (by decide) (by decide)⟩

/-! ## C8: the defaulted BBQ BlockSize -/

theorem cppLog2_pow (k : Nat) : cppLog2 (2 ^ k) = k + 1 := by
  induction k with
  | zero =>
    unfold cppLog2
    simp
  | succ k ih =>
    unfold cppLog2
    rw [if_neg (by
      simp only [not_lt]
      calc (2 : Nat) = 2 ^ 1 := (pow_one 2).symm
        _ ≤ 2 ^ (k + 1) := Nat.pow_le_pow_right (by norm_num) (by omega))]
    rw [pow_succ, Nat.mul_div_cancel _ (by norm_num : (0 : Nat) < 2), ih]
    omega

/-- C8 counterexample: at N = 16 the defaulted BlockSize is 16, so
N/B = 1 < 2, violating both the claimed N/B ≥ 2 and the source's own
static_assert(Size / BlockSize > 1); and at N = 256 (log₂ N = 8) the claimed
equation log₂(N/B) = max(1, log₂(N)/4), that is N/B = 2^max(1, 8/4), fails:
the default gives N/B = 2, not 4. -/
theorem C8_counterexample :
    defaultBlockSize 16 = 16 ∧ ¬2 ≤ 16 / defaultBlockSize 16 ∧
    defaultBlockSize 256 = 128 ∧ ¬256 / defaultBlockSize 256 = 2 ^ max 1 (8 / 4) := by
  have h16 : cppLog2 16 = 5 := by
    rw [show (16 : Nat) = 2 ^ 4 by norm_num, cppLog2_pow]
  have h256 : cppLog2 256 = 9 := by
    rw [show (256 : Nat) = 2 ^ 8 by norm_num, cppLog2_pow]
  unfold defaultBlockSize
  rw [h16, h256]
  decide

/-- C8 amended: for every power-of-two capacity N = 2^k with k ≥ 7 the
defaulted BlockSize B is the power of two N / 2^e with
e = max(1, (log₂ N + 1) / 4) - 1 (the source's log2 returns log₂ N + 1), so
N/B = 2^e ≥ 2; for N < 128 the default B equals N and the constraint
N/B ≥ 2 fails. -/
theorem C8_default_blocksize_characterisation (k : Nat) (hk : 7 ≤ k) :
    defaultBlockSize (2 ^ k) = 2 ^ (k - (max 1 ((k + 1) / 4) - 1)) ∧
    2 ^ k / defaultBlockSize (2 ^ k) = 2 ^ (max 1 ((k + 1) / 4) - 1) ∧
    2 ≤ 2 ^ k / defaultBlockSize (2 ^ k) := by
  have he1 : 1 ≤ max 1 ((k + 1) / 4) - 1 := by omega
  have hek : max 1 ((k + 1) / 4) - 1 ≤ k := by omega
  have hB : defaultBlockSize (2 ^ k) = 2 ^ (k - (max 1 ((k + 1) / 4) - 1)) := by
    unfold defaultBlockSize
    rw [cppLog2_pow, Nat.shiftLeft_eq, one_mul, Nat.pow_div hek (by norm_num)]
  refine ⟨hB, ?_, ?_⟩
  · rw [hB, Nat.pow_div (by omega) (by norm_num), Nat.sub_sub_self hek]
  · rw [hB, Nat.pow_div (by omega) (by norm_num), Nat.sub_sub_self hek]
    calc (2 : Nat) = 2 ^ 1 := (pow_one 2).symm
      _ ≤ _ := Nat.pow_le_pow_right (by norm_num) he1

/-- Witness for C8 at the concrete capacity 2^8 = 256. -/
theorem C8_witness :
    7 ≤ 8 ∧
    (defaultBlockSize (2 ^ 8) = 2 ^ (8 - (max 1 ((8 + 1) / 4) - 1)) ∧
     2 ^ 8 / defaultBlockSize (2 ^ 8) = 2 ^ (max 1 ((8 + 1) / 4) - 1) ∧
     2 ≤ 2 ^ 8 / defaultBlockSize (2 ^ 8)) :=
  ⟨by norm_num, C8_default_blocksize_characterisation 8 (by norm_num)⟩

/-! ## C7: BBQ cursor monotonicity -/

theorem blockLe_refl (b : BBQBlock) : blockLe b b :=
  ⟨le_refl _, le_refl _, le_refl _, le_refl _⟩

theorem fetchAdd1_le (c : Nat) (h : c < u64 - 1) : c ≤ fetchAdd1 c := by
  unfold fetchAdd1
  rw [Nat.mod_eq_of_lt (by unfold u64 at *; omega)]
  omega

theorem fetchMaxVal_le (c v : Nat) : c ≤ fetchMaxVal c v := le_max_left c v

theorem setBlock_getD_mono (s : BBQState) (b : Nat) (f : BBQBlock → BBQBlock)
    (hf : ∀ blk ∈ s.blocks, blockLe blk (f blk)) (b' : Nat) :
    blockLe (s.blocks.getD b' bbqBlockZero) ((setBlock s b f).blocks.getD b' bbqBlockZero) := by
  unfold setBlock
  rcases eq_or_ne b b' with rfl | hne
  · rcases Nat.lt_or_ge b s.blocks.length with hb | hb
    · rw [list_getD_set_self _ _ _ _ (by simpa using hb)]
      refine hf _ ?_
      rw [List.getD_eq_getElem _ _ hb]
      exact List.getElem_mem hb
    · rw [List.set_eq_of_length_le (by simpa using hb)]
      exact blockLe_refl _
  · rw [list_getD_set_ne _ _ _ _ _ hne]
    exact blockLe_refl _

/-- C7: every cursor write the BBQ operations perform (the fetch-adds of
allocate_entry, commit_entry and consume_entry, and the fetch_max calls of
reserve_entry, advance_phead and advance_chead) leaves all four packed
cursors of every block and both global heads at or above their previous
values.  The hypothesis excludes the one state the claim's wording ignores:
a fetch-add target already at the 64-bit wrap point 2^64 - 1, where the C++
uint64_t increment would wrap to 0 (the spec itself assumes the 32-bit
version halves never wrap, which subsumes this). -/
theorem C7_bbq_cursors_monotone (s s2 : BBQState) (hstep : BBQStep s s2)
    (hsat : bbqNoSat s) :
    (∀ b : Nat, blockLe (s.blocks.getD b bbqBlockZero) (s2.blocks.getD b bbqBlockZero)) ∧
    s.phead ≤ s2.phead ∧ s.chead ≤ s2.chead := by
  cases hstep with
  | allocEntry b =>
    exact ⟨setBlock_getD_mono s b _
        (fun blk hblk => ⟨fetchAdd1_le _ (hsat blk hblk).1, le_refl _, le_refl _, le_refl _⟩),
      le_refl _, le_refl _⟩
  | commitEntry b =>
    exact ⟨setBlock_getD_mono s b _
        (fun blk hblk => ⟨le_refl _, fetchAdd1_le _ (hsat blk hblk).2.1, le_refl _, le_refl _⟩),
      le_refl _, le_refl _⟩
  | reserveEntry b off ver =>
    exact ⟨setBlock_getD_mono s b _
        (fun blk _ => ⟨le_refl _, le_refl _, fetchMaxVal_le _ _, le_refl _⟩),
      le_refl _, le_refl _⟩
  | consumeEntry b =>
    exact ⟨setBlock_getD_mono s b _
        (fun blk hblk => ⟨le_refl _, le_refl _, le_refl _, fetchAdd1_le _ (hsat blk hblk).2.2⟩),
      le_refl _, le_refl _⟩
  | advancePhead b hv off ver2 =>
    refine ⟨?_, fetchMaxVal_le _ _, le_refl _⟩
    exact setBlock_getD_mono s b
      (fun blk =>
        { blk with
          committed := fetchMaxVal blk.committed (mkCursor 0 (hv + 1)),
          allocated := fetchMaxVal blk.allocated (mkCursor 0 (hv + 1)) })
      (fun blk _ => ⟨fetchMaxVal_le _ _, fetchMaxVal_le _ _, le_refl _, le_refl _⟩)
  | advanceChead b hv off ver2 =>
    refine ⟨?_, le_refl _, fetchMaxVal_le _ _⟩
    exact setBlock_getD_mono s b
      (fun blk =>
        { blk with
          consumed := fetchMaxVal blk.consumed (mkCursor 0 (hv + 1)),
          reserved := fetchMaxVal blk.reserved (mkCursor 0 (hv + 1)) })
      (fun blk _ => ⟨le_refl _, le_refl _, fetchMaxVal_le _ _, fetchMaxVal_le _ _⟩)

/-- Witness for C7: a commit_entry fetch-add on block 0 of the fresh
two-block state. -/
theorem C7_witness :
    bbqNoSat bbqW ∧
    ((∀ b : Nat, blockLe (bbqW.blocks.getD b bbqBlockZero) (bbqW2.blocks.getD b bbqBlockZero)) ∧
      bbqW.phead ≤ bbqW2.phead ∧ bbqW.chead ≤ bbqW2.chead) :=
  ⟨by decide, C7_bbq_cursors_monotone bbqW bbqW2 (BBQStep.commitEntry bbqW 0) (by decide)⟩

/-! ## C10: unbounded_stack::empty -/

theorem usWf_init : usWf usInit :=
  ⟨fun _ h => Option.noConfusion h, fun _ _ h _ => absurd h (by simp [usInit])⟩

theorem usWf_step (s : UStack) (op : UOp) (h : usWf s) : usWf (usStep s op) := by
  obtain ⟨hhead, hnext⟩ := h
  cases op with
  | push v =>
    constructor
    · intro i hi
      simp only [usStep, usPush] at hi
      cases hi
      simp [usStep, usPush]
    · intro j k hj hk
      simp only [usStep, usPush, List.length_append, List.length_cons, List.length_nil] at hj hk ⊢
      rcases Nat.lt_or_ge j s.nodes.length with hlt | hge
      · rw [List.getD_append _ _ _ _ hlt] at hk
        exact Nat.lt_succ_of_lt (hnext j k hlt hk)
      · rw [List.getD_append_right _ _ _ _ hge] at hk
        have hj0 : j - s.nodes.length = 0 := by omega
        rw [hj0] at hk
        simp only [List.getD_cons_zero] at hk
        exact Nat.lt_succ_of_lt (hhead k hk)
  | pop =>
    simp only [usStep, usPop]
    cases hh : s.head with
    | none => exact ⟨hhead, hnext⟩
    | some hd =>
      constructor
      · intro i hi
        simp only at hi
        exact hnext hd i (hhead hd hh) hi
      · exact hnext

theorem usWf_run (ops : List UOp) : usWf (usRun ops) := by
  unfold usRun
  induction ops using List.reverseRecOn with
  | nil => exact usWf_init
  | append_singleton ops op ih =>
    rw [List.foldl_append]
    exact usWf_step _ op ih

/-- C10: unbounded_stack::empty() returns the head pointer converted to bool,
so after any sequence of pushes and pops it returns true exactly when the
stack still holds at least one element (the opposite of what the name
suggests). -/
theorem C10_empty_is_nonempty (ops : List UOp) :
    usEmpty (usRun ops) = true ↔ usElems (usRun ops) ≠ [] := by
  obtain ⟨hhead, _⟩ := usWf_run ops
  unfold usEmpty usElems
  cases hh : (usRun ops).head with
  | none => simp [usChain]
  | some i =>
    have hi : i < (usRun ops).nodes.length := hhead i hh
    simp only [Option.isSome_some, true_iff]
    obtain ⟨m, hm⟩ : ∃ m, (usRun ops).nodes.length = m + 1 :=
      ⟨(usRun ops).nodes.length - 1, by omega⟩
    rw [hm]
    simp [usChain]

/-! ## C5: sequential FIFO of the Michael-Scott queue -/

theorem msChain_last_next (nodes : List QNode) (i : Nat) (ids : List Nat)
    (h : MSChain nodes i ids) :
    (nodes.getD (ids.getLastD i) ⟨none, 0⟩).next = none := by
  induction h with
  | nil i hi hnext => simpa using hnext
  | cons i j ids hi hij hnext hrest ih =>
    rw [List.getLastD_cons]
    exact ih

theorem msChain_lt (nodes : List QNode) (i : Nat) (ids : List Nat)
    (h : MSChain nodes i ids) : ∀ x ∈ ids, i < x := by
  induction h with
  | nil => simp
  | cons i j ids hi hij hnext hrest ih =>
    intro x hx
    rcases List.mem_cons.mp hx with rfl | hx
    · exact hij
    · exact Nat.lt_trans hij (ih x hx)

theorem msChain_bound (nodes : List QNode) (i : Nat) (ids : List Nat)
    (h : MSChain nodes i ids) : i < nodes.length ∧ ∀ x ∈ ids, x < nodes.length := by
  induction h with
  | nil i hi _ => exact ⟨hi, by simp⟩
  | cons i j ids hi hij hnext hrest ih =>
    refine ⟨hi, ?_⟩
    intro x hx
    rcases List.mem_cons.mp hx with rfl | hx
    · exact ih.1
    · exact ih.2 x hx

theorem list_getLastD_cons_mem {α : Type} (j d : α) (l : List α) :
    (j :: l).getLastD d ∈ j :: l := by
  induction l generalizing j d with
  | nil => simp
  | cons b t ih =>
    rw [List.getLastD_cons]
    exact List.mem_cons_of_mem j (ih b j)

theorem msChain_le_last (nodes : List QNode) (i : Nat) (ids : List Nat)
    (h : MSChain nodes i ids) : i ≤ ids.getLastD i := by
  cases ids with
  | nil => simp
  | cons j ids =>
    exact Nat.le_of_lt (msChain_lt nodes i (j :: ids) h _ (list_getLastD_cons_mem j i ids))

theorem msChain_heap_append (nodes : List QNode) (nd : QNode) (i : Nat) (ids : List Nat)
    (h : MSChain nodes i ids) : MSChain (nodes ++ [nd]) i ids := by
  induction h with
  | nil i hi hnext =>
    exact MSChain.nil i (by simp; omega) (by rwa [List.getD_append _ _ _ _ hi])
  | cons i j ids hi hij hnext hrest ih =>
    exact MSChain.cons i j ids (by simp; omega) hij (by rwa [List.getD_append _ _ _ _ hi]) ih

theorem msChain_extend (nodes : List QNode) (v : Nat) (i : Nat) (ids : List Nat)
    (h : MSChain nodes i ids) :
    MSChain
      ((nodes ++ [(⟨none, v⟩ : QNode)]).set (ids.getLastD i)
        { (nodes ++ [(⟨none, v⟩ : QNode)]).getD (ids.getLastD i) ⟨none, 0⟩ with
          next := some nodes.length })
      i (ids ++ [nodes.length]) := by
  induction h with
  | nil i hi hnext =>
    simp only [List.getLastD_nil, List.nil_append]
    have hlen : i < (nodes ++ [(⟨none, v⟩ : QNode)]).length := by simp; omega
    refine MSChain.cons i nodes.length [] (by simpa using hlen) hi ?_ ?_
    · rw [list_getD_set_self _ _ _ _ (by simpa using hlen)]
    · refine MSChain.nil nodes.length (by simp) ?_
      rw [list_getD_set_ne _ _ _ _ _ (by omega),
        List.getD_append_right _ _ _ _ (le_refl _), Nat.sub_self]
      rfl
  | cons i j ids hi hij hnext hrest ih =>
    have hlast : i < ids.getLastD j :=
      Nat.lt_of_lt_of_le hij (msChain_le_last nodes j ids hrest)
    rw [List.getLastD_cons] at *
    refine MSChain.cons i j (ids ++ [nodes.length]) ?_ hij ?_ ih
    · simp only [List.length_set, List.length_append, List.length_cons, List.length_nil]
      omega
    · rw [list_getD_set_ne _ _ _ _ _ (by omega), List.getD_append _ _ _ _ hi]
      exact hnext

theorem msAbs_init : MSAbs msInit [] := by
  unfold MSAbs
  exact ⟨[], MSChain.nil 0 (by simp [msInit]) (by simp [msInit]), by simp [msInit], by simp⟩

theorem msEnq_spec (s : MSQueue) (es : List Nat) (v : Nat) (habs : MSAbs s es) :
    ∃ s2, msEnq s v = some s2 ∧ MSAbs s2 (es ++ [v]) := by
  obtain ⟨ids, hchain, htail, hvals⟩ := habs
  have hbound := msChain_bound s.nodes s.head ids hchain
  have htl : s.tail < s.nodes.length := by
    rw [htail]
    cases ids with
    | nil => simpa using hbound.1
    | cons j ids2 => exact hbound.2 _ (list_getLastD_cons_mem j s.head ids2)
  have hnext : ((s.nodes ++ [(⟨none, v⟩ : QNode)]).getD s.tail ⟨none, 0⟩).next = none := by
    rw [List.getD_append _ _ _ _ htl, htail]
    exact msChain_last_next s.nodes s.head ids hchain
  apply Exists.intro (MSQueue.mk
    ((s.nodes ++ [(⟨none, v⟩ : QNode)]).set s.tail
      ({ (s.nodes ++ [(⟨none, v⟩ : QNode)]).getD s.tail ⟨none, 0⟩ with
        next := some s.nodes.length }))
    s.head s.nodes.length)
  refine ⟨?_, ?_⟩
  · unfold msEnq
    rw [show s.nodes.length + 2 = (s.nodes.length + 1) + 1 by rfl]
    unfold msEnqLoop
    simp only
    rw [hnext]
  · unfold MSAbs
    refine ⟨ids ++ [s.nodes.length], ?_, ?_, ?_⟩
    · show MSChain ((s.nodes ++ [(⟨none, v⟩ : QNode)]).set s.tail
        { (s.nodes ++ [(⟨none, v⟩ : QNode)]).getD s.tail ⟨none, 0⟩ with
          next := some s.nodes.length }) s.head (ids ++ [s.nodes.length])
      rw [htail]
      exact msChain_extend s.nodes v s.head ids hchain
    · simp [List.getLastD_concat]
    · have hval_pres : ∀ j, j < s.nodes.length →
          (((s.nodes ++ [(⟨none, v⟩ : QNode)]).set s.tail
            ({ (s.nodes ++ [(⟨none, v⟩ : QNode)]).getD s.tail ⟨none, 0⟩ with
              next := some s.nodes.length })).getD j ⟨none, 0⟩).value =
          (s.nodes.getD j ⟨none, 0⟩).value := by
        intro j hj
        rcases eq_or_ne s.tail j with rfl | hne
        · rw [list_getD_set_self _ _ _ _ (by simp; omega)]
          show ((s.nodes ++ [(⟨none, v⟩ : QNode)]).getD s.tail ⟨none, 0⟩).value = _
          rw [List.getD_append _ _ _ _ hj]
        · rw [list_getD_set_ne _ _ _ _ _ hne, List.getD_append _ _ _ _ hj]
      simp only []
      rw [List.map_append]
      congr 1
      · rw [hvals]
        exact (List.map_congr_left fun j hj => hval_pres j (hbound.2 j hj)).symm
      · simp only [List.map_cons, List.map_nil, List.cons.injEq, and_true]
        rw [list_getD_set_ne _ _ _ _ _ (by omega),
          List.getD_append_right _ _ _ _ (le_refl _), Nat.sub_self]
        rfl

theorem msPop_empty (s : MSQueue) (habs : MSAbs s []) : msPop s = some (false, 0, s) := by
  obtain ⟨ids, hchain, htail, hvals⟩ := habs
  have hids : ids = [] := by
    cases ids with
    | nil => rfl
    | cons a l => simp at hvals
  subst hids
  have hnext : (s.nodes.getD s.head ⟨none, 0⟩).next = none :=
    msChain_last_next s.nodes s.head [] hchain
  have hht : s.head = s.tail := by rw [htail]; rfl
  unfold msPop
  rw [show s.nodes.length + 2 = (s.nodes.length + 1) + 1 by rfl]
  unfold msPopLoop
  simp only
  rw [if_pos hht, hnext]

theorem msPop_cons (s : MSQueue) (v : Nat) (es : List Nat) (habs : MSAbs s (v :: es)) :
    ∃ s2, msPop s = some (true, v, s2) ∧ MSAbs s2 es := by
  obtain ⟨ids, hchain, htail, hvals⟩ := habs
  cases ids with
  | nil => simp at hvals
  | cons j ids2 =>
    cases hchain with
    | cons _ _ _ hi hij hnext hrest =>
      have hlast : s.head < s.tail := by
        rw [htail, List.getLastD_cons]
        exact Nat.lt_of_lt_of_le hij (msChain_le_last s.nodes j ids2 hrest)
      have hv : (s.nodes.getD j ⟨none, 0⟩).value = v := by
        simp only [List.map_cons, List.cons.injEq] at hvals
        exact hvals.1.symm
      refine ⟨{ s with head := j }, ?_, ?_⟩
      · unfold msPop
        rw [show s.nodes.length + 2 = (s.nodes.length + 1) + 1 by rfl]
        unfold msPopLoop
        simp only
        rw [if_neg (by omega), hnext]
        show some (true, (s.nodes.getD j ⟨none, 0⟩).value, ({ s with head := j } : MSQueue)) =
          some (true, v, { s with head := j })
        rw [hv]
      · unfold MSAbs
        refine ⟨ids2, hrest, ?_, ?_⟩
        · rw [htail, List.getLastD_cons]
        · simp only [List.map_cons, List.cons.injEq] at hvals
          exact hvals.2

theorem msEnqSeq_spec (vs : List Nat) (s : MSQueue) (es : List Nat) (habs : MSAbs s es) :
    ∃ s2, msEnqSeq s vs = some s2 ∧ MSAbs s2 (es ++ vs) := by
  induction vs generalizing s es with
  | nil =>
    refine ⟨s, rfl, ?_⟩
    rw [List.append_nil]
    exact habs
  | cons v vs ih =>
    obtain ⟨s1, henq, habs1⟩ := msEnq_spec s es v habs
    obtain ⟨s2, hseq, habs2⟩ := ih s1 (es ++ [v]) habs1
    refine ⟨s2, ?_, ?_⟩
    · unfold msEnqSeq
      rw [henq]
      exact hseq
    · rw [List.append_assoc, List.singleton_append] at habs2
      exact habs2

theorem msPopSeq_spec (es : List Nat) (s : MSQueue) (habs : MSAbs s es) :
    ∃ s2, msPopSeq s (es.length + 1) =
      some ((es.map fun v => (true, v)) ++ [(false, 0)], s2) := by
  induction es generalizing s with
  | nil =>
    refine ⟨s, ?_⟩
    unfold msPopSeq
    rw [msPop_empty s habs]
    rfl
  | cons v es ih =>
    obtain ⟨s1, hpop, habs1⟩ := msPop_cons s v es habs
    obtain ⟨s2, hseq⟩ := ih s1 habs1
    refine ⟨s2, ?_⟩
    show (msPop s).bind _ = _
    rw [hpop]
    show ((msPopSeq s1 (es.length + 1)).map fun pr => ((true, v) :: pr.1, pr.2)) =
      some ((((v :: es).map fun w => (true, w))) ++ [(false, 0)], s2)
    rw [hseq]
    rfl

/-- C5: the Michael-Scott unbounded queue is sequentially FIFO: pushing any
list of values vs into the fresh queue and then popping vs.length + 1 times
returns every value in push order with true, followed by one (false, _). -/
theorem C5_ms_queue_sequential_fifo (vs : List Nat) :
    ∃ s1 s2, msEnqSeq msInit vs = some s1 ∧
      msPopSeq s1 (vs.length + 1) =
        some ((vs.map fun v => (true, v)) ++ [(false, 0)], s2) := by
  obtain ⟨s1, henq, habs⟩ := msEnqSeq_spec vs msInit [] msAbs_init
  rw [List.nil_append] at habs
  obtain ⟨s2, hpop⟩ := msPopSeq_spec vs s1 habs
  exact ⟨s1, s2, henq, hpop⟩

/-! ## C1: insert-then-lookup across a page split -/

set_option maxRecDepth 100000 in
/-- C1: the claim says that after insert(key) returns, get finds the key — in
particular that an insert landing on a page at the occupancy threshold splits
the page and is then retried.  In the source the split path of
eh_hash_table::insert (eh.h lines 290-323) rehashes the old page's keys into
p0/p1 and returns without ever inserting the argument key.  Concretely: the
192 keys of c1Keys fill page 0 exactly to the 3/4*256 threshold; the 193rd
insert (key 1) triggers the split (the directory doubles to length 2, so
depth becomes 1) and key 1 is dropped: get(1) returns 256, the miss value of
fixed_hash_table2::get_index. -/
theorem C1_insert_after_split_misses :
    (ehInsertSeq ehInit c1Keys).depth = 1 ∧
    ehGet (ehInsertSeq ehInit c1Keys) 1 = 256 := by
  decide

/-! ## C6: store and counting toolkit -/

theorem storeMap_keys (st : EHStore) (i : Nat) (f : EHPage → EHPage) :
    (storeMap st i f).map Prod.fst = st.map Prod.fst := by
  unfold storeMap
  rw [List.map_map]
  refine List.map_congr_left ?_
  intro e _
  by_cases h : e.1 = i <;> simp [h, Function.comp]

theorem storeGet_storeMap_ne (st : EHStore) (i j : Nat) (f : EHPage → EHPage) (h : i ≠ j) :
    storeGet (storeMap st i f) j = storeGet st j := by
  induction st with
  | nil => rfl
  | cons e st ih =>
    unfold storeMap at *
    simp only [List.map_cons]
    by_cases he : e.1 = i
    · rw [if_pos he]
      show storeGet ((e.1, f e.2) :: _) j = _
      unfold storeGet
      rw [if_neg (by omega), if_neg (by omega)]
      exact ih
    · rw [if_neg he]
      show storeGet (e :: _) j = _
      unfold storeGet
      by_cases hej : e.1 = j
      · rw [if_pos hej, if_pos hej]
      · rw [if_neg hej, if_neg hej]
        exact ih

theorem storeGet_storeMap_self (st : EHStore) (i : Nat) (f : EHPage → EHPage)
    (hmem : i ∈ st.map Prod.fst) :
    storeGet (storeMap st i f) i = f (storeGet st i) := by
  induction st with
  | nil => simp at hmem
  | cons e st ih =>
    unfold storeMap at *
    simp only [List.map_cons] at *
    by_cases he : e.1 = i
    · rw [if_pos he]
      show storeGet ((e.1, f e.2) :: _) i = _
      unfold storeGet
      rw [if_pos he, if_pos he]
    · rw [if_neg he]
      show storeGet (e :: _) i = _
      unfold storeGet
      rw [if_neg he, if_neg he]
      rcases List.mem_cons.mp hmem with h | h
      · exact absurd h.symm he
      · exact ih h

theorem bumpRefs_eq_map (l : List Nat) (st : EHStore) :
    bumpRefs st l = st.map fun e => (e.1, { e.2 with refs := e.2.refs + l.count e.1 }) := by
  induction l generalizing st with
  | nil =>
    show st = _
    induction st with
    | nil => rfl
    | cons e st ih2 =>
      obtain ⟨k, d, r, t⟩ := e
      simpa using ih2
  | cons a l ih =>
    show bumpRefs (incRef st a) l = _
    rw [ih]
    unfold incRef storeMap
    rw [List.map_map]
    refine List.map_congr_left ?_
    intro e _
    obtain ⟨k, d, r, t⟩ := e
    by_cases h : k = a
    · simp only [Function.comp, h, if_pos rfl]
      simp [List.count_cons]
      omega
    · simp only [Function.comp, if_neg h]
      simp [List.count_cons, h]

theorem storeRemove_mem (st : EHStore) (i : Nat) (e : Nat × EHPage) :
    e ∈ storeRemove st i ↔ e ∈ st ∧ e.1 ≠ i := by
  unfold storeRemove
  rw [List.mem_filter]
  simp

theorem storeRemove_keys_sublist (st : EHStore) (i : Nat) :
    ((storeRemove st i).map Prod.fst).Sublist (st.map Prod.fst) :=
  List.Sublist.map Prod.fst (List.filter_sublist st)

theorem storeGet_append_left (st st2 : EHStore) (j : Nat) (h : j ∈ st.map Prod.fst) :
    storeGet (st ++ st2) j = storeGet st j := by
  induction st with
  | nil => simp at h
  | cons e st ih =>
    show storeGet (e :: (st ++ st2)) j = _
    unfold storeGet
    by_cases he : e.1 = j
    · rw [if_pos he, if_pos he]
    · rw [if_neg he, if_neg he]
      refine ih ?_
      rcases List.mem_cons.mp h with hc | hc
      · exact absurd hc.symm he
      · exact hc

theorem storeGet_append_right (st st2 : EHStore) (j : Nat) (h : j ∉ st.map Prod.fst) :
    storeGet (st ++ st2) j = storeGet st2 j := by
  induction st with
  | nil => rfl
  | cons e st ih =>
    simp only [List.map_cons, List.mem_cons, not_or] at h
    show (if e.1 = j then e.2 else storeGet (st ++ st2) j) = storeGet st2 j
    rw [if_neg fun hc => h.1 hc.symm]
    exact ih h.2

theorem storeGet_mem (st : EHStore) (j : Nat) (h : j ∈ st.map Prod.fst) :
    (j, storeGet st j) ∈ st := by
  induction st with
  | nil => simp at h
  | cons e st ih =>
    by_cases he : e.1 = j
    · have h1 : storeGet (e :: st) j = e.2 := by
        show (if e.1 = j then e.2 else storeGet st j) = e.2
        rw [if_pos he]
      rw [h1]
      subst he
      exact List.mem_cons_self _ _
    · have h1 : storeGet (e :: st) j = storeGet st j := by
        show (if e.1 = j then e.2 else storeGet st j) = storeGet st j
        rw [if_neg he]
      rw [h1]
      right
      refine ih ?_
      rcases List.mem_cons.mp h with hc | hc
      · exact absurd hc.symm he
      · exact hc

theorem mem_storeGet_eq (st : EHStore) (e : Nat × EHPage)
    (hnodup : (st.map Prod.fst).Nodup) (he : e ∈ st) :
    storeGet st e.1 = e.2 := by
  induction st with
  | nil => simp at he
  | cons e2 st ih =>
    simp only [List.map_cons, List.nodup_cons] at hnodup
    show storeGet (e2 :: st) e.1 = _
    unfold storeGet
    rcases List.mem_cons.mp he with rfl | hmem
    · rw [if_pos rfl]
    · rw [if_neg ?_]
      · exact ih hnodup.2 hmem
      · intro hc
        exact hnodup.1 (hc ▸ List.mem_map_of_mem Prod.fst hmem)

theorem count_set_triple (dir : List Nat) (i a : Nat) (hi : i < dir.length)
    (hne : dir.getD i 0 ≠ a) :
    (dir.set i a).count a = dir.count a + 1 ∧
    dir.count (dir.getD i 0) = (dir.set i a).count (dir.getD i 0) + 1 ∧
    ∀ x, x ≠ a → x ≠ dir.getD i 0 → (dir.set i a).count x = dir.count x := by
  induction dir generalizing i with
  | nil => simp at hi
  | cons e t ih =>
    cases i with
    | zero =>
      simp only [List.getD_cons_zero] at hne ⊢
      refine ⟨?_, ?_, ?_⟩
      · simp [List.count_cons]
        omega
      · simp [List.count_cons, hne]
      · intro x hxa hxe
        simp [List.count_cons, fun hc : x = e => hxe hc, fun hc : x = a => hxa hc]
    | succ n =>
      simp only [List.getD_cons_succ] at hne ⊢
      have hn : n < t.length := by simpa using hi
      obtain ⟨h1, h2, h3⟩ := ih n hn hne
      refine ⟨?_, ?_, ?_⟩
      · show ((e :: t.set n a).count a) = _
        simp only [List.count_cons, h1]
        omega
      · show (e :: t).count (t.getD n 0) = ((e :: t.set n a).count (t.getD n 0)) + 1
        simp only [List.count_cons, h2]
        omega
      · intro x hxa hxe
        show ((e :: t.set n a).count x) = (e :: t).count x
        simp only [List.count_cons, h3 x hxa hxe]

theorem filter_map_gen {α β : Type} (f : α → β) (p : β → Bool) (l : List α) :
    (l.map f).filter p = (l.filter fun a => p (f a)).map f := by
  induction l with
  | nil => rfl
  | cons a l ih =>
    simp only [List.map_cons, List.filter_cons]
    by_cases h : p (f a) <;> simp [h, ih]

theorem count_eq_pos_count (dir : List Nat) (x : Nat) :
    dir.count x = ((List.range dir.length).filter fun j => dir.getD j 0 = x).length := by
  induction dir with
  | nil => simp
  | cons e t ih =>
    rw [show (e :: t).length = t.length + 1 from rfl, List.range_succ_eq_map]
    rw [List.filter_cons]
    have hmap : ((List.range t.length).map Nat.succ).filter
        (fun j => decide ((e :: t).getD j 0 = x)) =
        ((List.range t.length).filter fun j => t.getD j 0 = x).map Nat.succ := by
      rw [filter_map_gen]
      rfl
    rw [hmap]
    simp only [List.getD_cons_zero]
    by_cases he : e = x
    · simp [List.count_cons, he, ih]
    · have hxe : x ≠ e := fun hc => he hc.symm
      simp [List.count_cons, he, hxe, ih]

theorem range_filter_eq_len (m r : Nat) (hr : r < m) :
    ((List.range m).filter fun x => x = r).length = 1 := by
  induction m with
  | zero => omega
  | succ m ih =>
    rw [List.range_succ, List.filter_append, List.length_append]
    rcases Nat.lt_or_ge r m with hlt | hge
    · rw [ih hlt]
      have hmr : ¬(m = r) := by omega
      simp [hmr]
    · have hrm : r = m := by omega
      subst hrm
      have h0 : (List.range r).filter (fun x => decide (x = r)) = [] := by
        rw [List.filter_eq_nil_iff]
        intro a ha
        simp only [decide_eq_true_eq]
        have := List.mem_range.mp ha
        omega
      rw [h0]
      simp

theorem count_residues (m q r : Nat) (hr : r < m) :
    ((List.range (q * m)).filter fun j => j % m = r).length = q := by
  induction q with
  | zero => simp
  | succ q ih =>
    rw [show (q + 1) * m = q * m + m by ring, List.range_add, List.filter_append,
      List.length_append, ih]
    rw [filter_map_gen]
    have hcong : ((List.range m).filter fun x => decide ((q * m + x) % m = r)) =
        (List.range m).filter fun x => decide (x = r) := by
      refine List.filter_congr ?_
      intro x hx
      have hxm : x < m := List.mem_range.mp hx
      have hmod : (q * m + x) % m = x := by
        rw [Nat.add_comm, Nat.add_mul_mod_self_right, Nat.mod_eq_of_lt hxm]
      simp [hmod]
    rw [hcong, List.length_map, range_filter_eq_len m r hr]

theorem dirIndicesAux_lb (high : Nat) :
    ∀ fuel r len j, j ∈ dirIndicesAux high fuel r len → r ≤ j := by
  intro fuel
  induction fuel with
  | zero =>
    intro r len j h
    simp [dirIndicesAux] at h
  | succ fuel ih =>
    intro r len j h
    unfold dirIndicesAux at h
    by_cases hc : 0 < high ∧ r < len
    · rw [if_pos hc] at h
      rcases List.mem_cons.mp h with rfl | h2
      · exact le_refl _
      · have := ih (r + high) len j h2
        omega
    · rw [if_neg hc] at h
      simp at h

theorem dirIndicesAux_nodup (high : Nat) :
    ∀ fuel r len, (dirIndicesAux high fuel r len).Nodup := by
  intro fuel
  induction fuel with
  | zero =>
    intro r len
    simp [dirIndicesAux]
  | succ fuel ih =>
    intro r len
    unfold dirIndicesAux
    by_cases hc : 0 < high ∧ r < len
    · rw [if_pos hc]
      refine List.nodup_cons.mpr ⟨?_, ih (r + high) len⟩
      intro hmem
      have := dirIndicesAux_lb high fuel (r + high) len r hmem
      omega
    · rw [if_neg hc]
      exact List.nodup_nil

theorem mem_dirIndicesAux (high : Nat) :
    ∀ fuel r len j, len - r < fuel →
      (j ∈ dirIndicesAux high fuel r len ↔
        0 < high ∧ r ≤ j ∧ j < len ∧ high ∣ (j - r)) := by
  intro fuel
  induction fuel with
  | zero =>
    intro r len j h
    exact absurd h (by omega)
  | succ fuel ih =>
    intro r len j h
    unfold dirIndicesAux
    by_cases hc : 0 < high ∧ r < len
    · rw [if_pos hc, List.mem_cons, ih (r + high) len j (by omega)]
      constructor
      · rintro (rfl | ⟨hh, hrj, hj, c, hcc⟩)
        · exact ⟨hc.1, le_refl _, hc.2, by simp⟩
        · refine ⟨hh, by omega, hj, c + 1, ?_⟩
          have h2 : high * (c + 1) = high * c + high := Nat.mul_succ high c
          rw [h2, ← hcc]
          omega
      · rintro ⟨hh, hrj, hj, c, hcc⟩
        cases c with
        | zero =>
          left
          simp at hcc
          omega
        | succ c2 =>
          right
          have h2 : high * (c2 + 1) = high * c2 + high := Nat.mul_succ high c2
          rw [h2] at hcc
          have hlb : high * c2 + high + r ≤ j := by omega
          refine ⟨hh, by omega, hj, c2, ?_⟩
          omega
    · rw [if_neg hc]
      simp only [List.not_mem_nil, false_iff]
      rintro ⟨hh, hrj, hj, _⟩
      exact hc ⟨hh, by omega⟩

theorem mem_dirIndices (high r len j : Nat) (hhigh : 0 < high) (hr : r < high) :
    j ∈ dirIndices high r len ↔ j < len ∧ j % high = r := by
  unfold dirIndices
  rw [mem_dirIndicesAux high (len + 1) r len j (by omega)]
  constructor
  · rintro ⟨hh, hrj, hj, c, hcc⟩
    refine ⟨hj, ?_⟩
    have hj2 : j = r + high * c := by omega
    rw [hj2, Nat.add_mul_mod_self_left, Nat.mod_eq_of_lt hr]
  · rintro ⟨hj, hmod⟩
    refine ⟨hhigh, ?_, hj, j / high, ?_⟩
    · rw [← hmod]
      exact Nat.mod_le j high
    · have := Nat.div_add_mod j high
      omega

theorem dirIndices_nodup (high r len : Nat) : (dirIndices high r len).Nodup :=
  dirIndicesAux_nodup high (len + 1) r len

theorem page_eta (p : EHPage) : ({ p with refs := p.refs } : EHPage) = p := rfl

theorem ehReassign_spec (high pid0 pid1 pid : Nat) (hne0 : pid ≠ pid0) (hne1 : pid ≠ pid1)
    (hne01 : pid0 ≠ pid1) :
    ∀ (is : List Nat) (dir : List Nat) (st : EHStore),
      is.Nodup →
      (∀ i ∈ is, i < dir.length ∧ dir.getD i 0 = pid) →
      (ehReassign high pid0 pid1 is (dir, st)).1.length = dir.length ∧
      (∀ j ∈ is, (ehReassign high pid0 pid1 is (dir, st)).1.getD j 0 =
        if ehHighBitSet j high then pid1 else pid0) ∧
      (∀ j, j ∉ is → (ehReassign high pid0 pid1 is (dir, st)).1.getD j 0 = dir.getD j 0) ∧
      (ehReassign high pid0 pid1 is (dir, st)).2 = st.map (fun e =>
        if e.1 = pid then (e.1, { e.2 with refs := e.2.refs - is.length })
        else if e.1 = pid0 then
          (e.1, { e.2 with refs := e.2.refs + (is.filter fun i => !ehHighBitSet i high).length })
        else if e.1 = pid1 then
          (e.1, { e.2 with refs := e.2.refs + (is.filter fun i => ehHighBitSet i high).length })
        else e) ∧
      (ehReassign high pid0 pid1 is (dir, st)).1.count pid0 =
        dir.count pid0 + (is.filter fun i => !ehHighBitSet i high).length ∧
      (ehReassign high pid0 pid1 is (dir, st)).1.count pid1 =
        dir.count pid1 + (is.filter fun i => ehHighBitSet i high).length ∧
      dir.count pid = (ehReassign high pid0 pid1 is (dir, st)).1.count pid + is.length ∧
      (∀ x, x ≠ pid → x ≠ pid0 → x ≠ pid1 →
        (ehReassign high pid0 pid1 is (dir, st)).1.count x = dir.count x) := by
  intro is
  induction is with
  | nil =>
    intro dir st _ _
    refine ⟨rfl, by simp, fun j _ => rfl, ?_, by simp [ehReassign], by simp [ehReassign],
      by simp [ehReassign], fun x _ _ _ => rfl⟩
    show st = _
    induction st with
    | nil => rfl
    | cons e st ihs =>
      obtain ⟨k, d, rf, tb⟩ := e
      simp only [List.map_cons]
      rw [← ihs]
      by_cases h1 : k = pid
      · simp [h1]
      · by_cases h2 : k = pid0
        · simp [h1, h2]
        · by_cases h3 : k = pid1 <;> simp [h1, h2, h3]
  | cons i is ih =>
    intro dir st hnodup hpre
    obtain ⟨hilen, hival⟩ := hpre i (List.mem_cons_self i is)
    have hnotmem : i ∉ is := (List.nodup_cons.mp hnodup).1
    have hnodup2 : is.Nodup := (List.nodup_cons.mp hnodup).2
    have hstep : ehReassign high pid0 pid1 (i :: is) (dir, st) =
        ehReassign high pid0 pid1 is
          (dir.set i (if ehHighBitSet i high then pid1 else pid0),
            incRef (decRef st pid) (if ehHighBitSet i high then pid1 else pid0)) := by
      show ehReassign high pid0 pid1 is
        (dir.set i _, incRef (decRef st (dir.getD i 0)) _) = _
      rw [hival]
    have hpre2 : ∀ i2 ∈ is,
        i2 < (dir.set i (if ehHighBitSet i high then pid1 else pid0)).length ∧
        (dir.set i (if ehHighBitSet i high then pid1 else pid0)).getD i2 0 = pid := by
      intro i2 hi2
      obtain ⟨hl, hv⟩ := hpre i2 (List.mem_cons_of_mem i hi2)
      refine ⟨by simpa using hl, ?_⟩
      rw [list_getD_set_ne _ _ _ _ _ (by rintro rfl; exact hnotmem hi2)]
      exact hv
    obtain ⟨ihlen, ihin, ihout, ihst, ihc0, ihc1, ihcp, ihcx⟩ :=
      ih (dir.set i (if ehHighBitSet i high then pid1 else pid0))
        (incRef (decRef st pid) (if ehHighBitSet i high then pid1 else pid0)) hnodup2 hpre2
    have hnp_ne : dir.getD i 0 ≠ (if ehHighBitSet i high then pid1 else pid0) := by
      rw [hival]
      by_cases hb : ehHighBitSet i high <;> simp [hb, hne0, hne1]
    obtain ⟨hcset0, hcsetp, hcsetx⟩ :=
      count_set_triple dir i (if ehHighBitSet i high then pid1 else pid0) hilen hnp_ne
    rw [hival] at hcsetp
    refine ⟨?_, ?_, ?_, ?_, ?_, ?_, ?_, ?_⟩
    · rw [hstep, ihlen]
      simp
    · intro j hj
      rcases List.mem_cons.mp hj with rfl | hj2
      · rw [hstep, ihout j hnotmem,
          list_getD_set_self _ _ _ _ (by simpa using hilen)]
      · rw [hstep]
        exact ihin j hj2
    · intro j hj
      have hji : j ≠ i := fun hc => hj (hc ▸ List.mem_cons_self i is)
      have hjis : j ∉ is := fun hc => hj (List.mem_cons_of_mem i hc)
      rw [hstep, ihout j hjis, list_getD_set_ne _ _ _ _ _ (fun hc => hji hc.symm)]
    · rw [hstep, ihst]
      unfold incRef decRef storeMap
      rw [List.map_map, List.map_map]
      refine List.map_congr_left ?_
      intro e _
      obtain ⟨k, d, rf, tb⟩ := e
      clear ihin ihout ihc0 ihc1 ihcp ihcx ihst ihlen hpre hpre2 hstep hcset0 hcsetp hcsetx
      clear hnp_ne hnodup hnodup2
      have h01 : pid0 ≠ pid := hne0.symm
      have h10 : pid1 ≠ pid := hne1.symm
      have h101 : pid1 ≠ pid0 := hne01.symm
      by_cases h1 : k = pid
      · by_cases hb : ehHighBitSet i high <;>
          simp [Function.comp, hb, h1, hne0, hne1, List.filter_cons] <;> omega
      · by_cases h2 : k = pid0
        · by_cases hb : ehHighBitSet i high <;>
            simp [Function.comp, hb, h2, h01, hne01, List.filter_cons] <;> omega
        · by_cases h3 : k = pid1
          · by_cases hb : ehHighBitSet i high <;>
              simp [Function.comp, hb, h3, h10, h101, List.filter_cons] <;> omega
          · by_cases hb : ehHighBitSet i high <;>
              simp [Function.comp, hb, h1, h2, h3]
    · rw [hstep, ihc0, List.filter_cons]
      by_cases hb : ehHighBitSet i high
      · rw [if_pos hb] at hcsetx ihc0 ⊢
        simp only [hb, Bool.not_true]
        rw [hcsetx pid0 hne01 (by rw [hival]; exact fun hc => hne0 hc.symm)]
        simp
      · rw [if_neg hb] at hcset0 ⊢
        simp only [hb, Bool.not_false]
        rw [hcset0]
        simp
        omega
    · rw [hstep, ihc1, List.filter_cons]
      by_cases hb : ehHighBitSet i high
      · rw [if_pos hb] at hcset0 ⊢
        simp only [hb]
        rw [hcset0]
        simp
        omega
      · rw [if_neg hb] at hcsetx ⊢
        simp only [hb]
        rw [hcsetx pid1 hne01.symm (by rw [hival]; exact fun hc => hne1 hc.symm)]
        simp
    · rw [hstep]
      rw [hcsetp, ihcp]
      simp only [List.length_cons]
      omega
    · intro x hx hx0 hx1
      rw [hstep, ihcx x hx hx0 hx1]
      refine hcsetx x ?_ (by rw [hival]; exact hx)
      by_cases hb : ehHighBitSet i high <;> simp [hb, hx0, hx1]

theorem keys_map_of_fst (f : Nat × EHPage → Nat × EHPage)
    (hf : ∀ e, (f e).1 = e.1) (st : EHStore) :
    (st.map f).map Prod.fst = st.map Prod.fst := by
  rw [List.map_map]
  exact List.map_congr_left fun e _ => hf e

theorem storeGet_map_fst (f : Nat × EHPage → Nat × EHPage)
    (hf : ∀ e, (f e).1 = e.1) :
    ∀ (st : EHStore) (j : Nat), j ∈ st.map Prod.fst →
      storeGet (st.map f) j = (f (j, storeGet st j)).2 := by
  intro st
  induction st with
  | nil =>
    intro j hj
    simp at hj
  | cons e st ih =>
    intro j hj
    obtain ⟨k, pg⟩ := e
    simp only [List.map_cons] at hj ⊢
    by_cases hk : k = j
    · subst hk
      show (if (f (k, pg)).1 = k then (f (k, pg)).2 else storeGet (st.map f) k) =
        (f (k, if k = k then pg else storeGet st k)).2
      rw [if_pos (hf (k, pg)), if_pos rfl]
    · show (if (f (k, pg)).1 = j then (f (k, pg)).2 else storeGet (st.map f) j) =
        (f (j, if k = j then pg else storeGet st j)).2
      rw [if_neg (by rw [hf (k, pg)]; exact hk), if_neg hk]
      refine ih j ?_
      rcases List.mem_cons.mp hj with hc | hc
      · exact absurd hc.symm hk
      · exact hc

theorem nodup_length_eq (l1 l2 : List Nat) (h1 : l1.Nodup) (h2 : l2.Nodup)
    (h : ∀ a, a ∈ l1 ↔ a ∈ l2) : l1.length = l2.length :=
  List.Perm.length_eq ((List.perm_ext_iff_of_nodup h1 h2).mpr h)

theorem zone0 (high r i : Nat) (hhigh : 0 < high) (hr : r < high) :
    i % (high * 2) = r ↔ (i % high = r ∧ ehHighBitSet i high = false) := by
  have hm : i % (high * 2) = i % high + high * (i / high % 2) := Nat.mod_mul
  have hlt : i % high < high := Nat.mod_lt _ hhigh
  have h2 : i / high % 2 = 0 ∨ i / high % 2 = 1 := by omega
  unfold ehHighBitSet
  rcases h2 with h | h <;> rw [hm, h] <;> simp [h] <;> omega

theorem zone1 (high r i : Nat) (hhigh : 0 < high) (hr : r < high) :
    i % (high * 2) = r + high ↔ (i % high = r ∧ ehHighBitSet i high = true) := by
  have hm : i % (high * 2) = i % high + high * (i / high % 2) := Nat.mod_mul
  have hlt : i % high < high := Nat.mod_lt _ hhigh
  have h2 : i / high % 2 = 0 ∨ i / high % 2 = 1 := by omega
  unfold ehHighBitSet
  rcases h2 with h | h <;> rw [hm, h] <;> simp [h] <;> omega

theorem map_sum_add {α : Type} (l : List α) (f g : α → Nat) :
    (l.map fun a => f a + g a).sum = (l.map f).sum + (l.map g).sum := by
  induction l with
  | nil => rfl
  | cons a l ih =>
    simp only [List.map_cons, List.sum_cons, ih]
    omega

theorem count_ite_sum (a : Nat) (K : List Nat) :
    (K.map fun x => if a = x then 1 else 0).sum = K.count a := by
  induction K with
  | nil => simp
  | cons b K ih =>
    simp only [List.map_cons, List.sum_cons, List.count_cons, ih]
    by_cases h : a = b
    · simp [h]
      omega
    · have h2 : ¬(b = a) := fun hc => h hc.symm
      simp [h, h2]

theorem sum_counts (K : List Nat) (hK : K.Nodup) (dir : List Nat)
    (hd : ∀ a ∈ dir, a ∈ K) : (K.map fun x => dir.count x).sum = dir.length := by
  induction dir with
  | nil => simp
  | cons a d ih =>
    have ha : a ∈ K := hd a (List.mem_cons_self a d)
    have hd2 : ∀ b ∈ d, b ∈ K := fun b hb => hd b (List.mem_cons_of_mem a hb)
    have hsplit : (K.map fun x => (a :: d).count x).sum =
        ((K.map fun x => d.count x).sum + (K.map fun x => if a = x then 1 else 0).sum) := by
      rw [← map_sum_add]
      refine congrArg List.sum (List.map_congr_left ?_)
      intro x _
      rw [List.count_cons]
      by_cases h : a = x <;> simp [h]
    rw [hsplit, ih hd2, count_ite_sum, List.count_eq_one_of_mem hK ha]
    rfl

theorem ehDouble_inv (s : EHTable) (inv : EHInv s) :
    EHInv ⟨s.depth + 1, s.dir ++ s.dir, bumpRefs s.store s.dir, s.nextId⟩ := by
  obtain ⟨hlen, hnodup, hfresh, hlive, hdepth, href, hrefs, hpat⟩ := inv
  have hbump : bumpRefs s.store s.dir =
      s.store.map fun e => (e.1, { e.2 with refs := e.2.refs + s.dir.count e.1 }) :=
    bumpRefs_eq_map s.dir s.store
  have hf : ∀ e : Nat × EHPage,
      ((fun e : Nat × EHPage => (e.1, { e.2 with refs := e.2.refs + s.dir.count e.1 })) e).1
        = e.1 := fun e => rfl
  have hgd : ∀ j, j < s.dir.length → (s.dir ++ s.dir).getD j 0 = s.dir.getD j 0 := by
    intro j hj
    exact List.getD_append _ _ _ _ hj
  have hfold : ∀ jj, jj < s.dir.length + s.dir.length → ∃ j0, j0 < s.dir.length ∧
      (s.dir ++ s.dir).getD jj 0 = s.dir.getD j0 0 ∧
      ∀ m : Nat, m ∣ s.dir.length → jj % m = j0 % m := by
    intro jj hjj
    by_cases hlt : jj < s.dir.length
    · exact ⟨jj, hlt, hgd jj hlt, fun m _ => rfl⟩
    · refine ⟨jj - s.dir.length, by omega, ?_, ?_⟩
      · exact List.getD_append_right _ _ _ _ (by omega)
      · intro m hm
        obtain ⟨c, hc⟩ := hm
        have hjj2 : jj = (jj - s.dir.length) + m * c := by omega
        conv_lhs => rw [hjj2]
        rw [Nat.add_mul_mod_self_left]
  refine ⟨?_, ?_, ?_, ?_, ?_, ?_, ?_, ?_⟩
  · show (s.dir ++ s.dir).length = 2 ^ (s.depth + 1)
    simp only [List.length_append, hlen, pow_succ]
    omega
  · show ((bumpRefs s.store s.dir).map Prod.fst).Nodup
    rw [hbump, keys_map_of_fst _ hf]
    exact hnodup
  · intro e he
    rw [hbump] at he
    obtain ⟨e0, he0, rfl⟩ := List.mem_map.mp he
    exact hfresh e0 he0
  · intro i hi
    show ∃ p, ((s.dir ++ s.dir).getD i 0, p) ∈ bumpRefs s.store s.dir
    rw [List.length_append] at hi
    obtain ⟨i0, hi0, hgdi, _⟩ := hfold i hi
    rw [hgdi]
    obtain ⟨p, hp⟩ := hlive i0 hi0
    refine ⟨{ p with refs := p.refs + s.dir.count (s.dir.getD i0 0) }, ?_⟩
    rw [hbump]
    exact List.mem_map_of_mem _ hp
  · intro e he
    rw [hbump] at he
    obtain ⟨e0, he0, rfl⟩ := List.mem_map.mp he
    show e0.2.depth ≤ s.depth + 1
    exact le_trans (hdepth e0 he0) (Nat.le_succ _)
  · intro e he
    rw [hbump] at he
    obtain ⟨e0, he0, rfl⟩ := List.mem_map.mp he
    obtain ⟨i, hi, hgi⟩ := href e0 he0
    refine ⟨i, ?_, ?_⟩
    · show i < (s.dir ++ s.dir).length
      rw [List.length_append]
      omega
    · show (s.dir ++ s.dir).getD i 0 = e0.1
      rw [hgd i hi]
      exact hgi
  · intro e he
    rw [hbump] at he
    obtain ⟨e0, he0, rfl⟩ := List.mem_map.mp he
    show e0.2.refs + s.dir.count e0.1 = (s.dir ++ s.dir).count e0.1
    rw [List.count_append, hrefs e0 he0]
  · intro i hi j hj
    show (s.dir ++ s.dir).getD j 0 = (s.dir ++ s.dir).getD i 0 ↔
      j % 2 ^ (storeGet (bumpRefs s.store s.dir) ((s.dir ++ s.dir).getD i 0)).depth =
        i % 2 ^ (storeGet (bumpRefs s.store s.dir) ((s.dir ++ s.dir).getD i 0)).depth
    rw [List.length_append] at hi hj
    obtain ⟨i0, hi0, hgdi, hmi⟩ := hfold i hi
    obtain ⟨j0, hj0, hgdj, hmj⟩ := hfold j hj
    obtain ⟨p, hp⟩ := hlive i0 hi0
    have hsg : storeGet s.store (s.dir.getD i0 0) = p :=
      mem_storeGet_eq s.store (s.dir.getD i0 0, p) hnodup hp
    have hmemx : s.dir.getD i0 0 ∈ s.store.map Prod.fst :=
      List.mem_map.mpr ⟨(s.dir.getD i0 0, p), hp, rfl⟩
    have hpg : (storeGet (bumpRefs s.store s.dir) ((s.dir ++ s.dir).getD i 0)).depth =
        p.depth := by
      rw [hgdi, hbump, storeGet_map_fst _ hf _ _ hmemx, hsg]
    rw [hpg, hgdi, hgdj]
    have hdvd : 2 ^ p.depth ∣ s.dir.length := by
      rw [hlen]
      exact pow_dvd_pow 2 (hdepth (s.dir.getD i0 0, p) hp)
    rw [hmi _ hdvd, hmj _ hdvd]
    have hdp : (ehPageAt s i0).depth = p.depth := by
      show (storeGet s.store (s.dir.getD i0 0)).depth = p.depth
      rw [hsg]
    have hp2 := hpat i0 hi0 j0 hj0
    rw [hdp] at hp2
    exact hp2

theorem ehReassign_keys (high pid0 pid1 : Nat) :
    ∀ (is : List Nat) (dir : List Nat) (st : EHStore),
      ((ehReassign high pid0 pid1 is (dir, st)).2).map Prod.fst = st.map Prod.fst := by
  intro is
  induction is with
  | nil =>
    intro dir st
    rfl
  | cons i is ih =>
    intro dir st
    show ((ehReassign high pid0 pid1 is
      (dir.set i _, incRef (decRef st (dir.getD i 0)) _)).2).map Prod.fst = _
    rw [ih]
    unfold incRef decRef
    rw [storeMap_keys, storeMap_keys]

theorem ehSplit_inv (s1 : EHTable) (pid : Nat) (p : EHPage) (r : Nat) (t0 t1 : FixedTable)
    (ds : List Nat × EHStore)
    (inv1 : EHInv s1) (hmem : (pid, p) ∈ s1.store) (hld : p.depth < s1.depth)
    (hr : r < 2 ^ p.depth)
    (hch : ∀ i, i < s1.dir.length → (s1.dir.getD i 0 = pid ↔ i % 2 ^ p.depth = r))
    (hds : ds = ehReassign (2 ^ p.depth) s1.nextId (s1.nextId + 1)
        (dirIndices (2 ^ p.depth) r s1.dir.length)
        (s1.dir, s1.store ++ [(s1.nextId, ⟨p.depth + 1, 0, t0⟩),
          (s1.nextId + 1, ⟨p.depth + 1, 0, t1⟩)])) :
    EHInv ⟨s1.depth, ds.1, storeRemove ds.2 pid, s1.nextId + 2⟩ := by
  obtain ⟨hlen, hnodup, hfresh, hlive, hdepth, href, hrefs, hpat⟩ := inv1
  have hhigh : 0 < 2 ^ p.depth := pow_pos (by omega) _
  have hfp : pid < s1.nextId := hfresh (pid, p) hmem
  have hne0 : pid ≠ s1.nextId := by omega
  have hne1 : pid ≠ s1.nextId + 1 := by omega
  have hne01 : s1.nextId ≠ s1.nextId + 1 := by omega
  have hmemis : ∀ j, j ∈ dirIndices (2 ^ p.depth) r s1.dir.length ↔
      j < s1.dir.length ∧ j % 2 ^ p.depth = r :=
    fun j => mem_dirIndices _ _ _ j hhigh hr
  have hpre : ∀ i ∈ dirIndices (2 ^ p.depth) r s1.dir.length,
      i < s1.dir.length ∧ s1.dir.getD i 0 = pid := by
    intro i hi
    obtain ⟨h1, h2⟩ := (hmemis i).mp hi
    exact ⟨h1, (hch i h1).mpr h2⟩
  obtain ⟨hlen', hin, hout, hst', hc0', hc1', hcp', hcx'⟩ :=
    ehReassign_spec (2 ^ p.depth) s1.nextId (s1.nextId + 1) pid hne0 hne1 hne01
      (dirIndices (2 ^ p.depth) r s1.dir.length) s1.dir
      (s1.store ++ [(s1.nextId, ⟨p.depth + 1, 0, t0⟩), (s1.nextId + 1, ⟨p.depth + 1, 0, t1⟩)])
      (dirIndices_nodup _ _ _) hpre
  rw [← hds] at hlen' hin hout hst' hc0' hc1' hcp' hcx'
  have hstep2 : 2 ^ (p.depth + 1) ≤ 2 ^ s1.depth := Nat.pow_le_pow_right (by omega) (by omega)
  have h2h : 2 ^ p.depth * 2 = 2 ^ (p.depth + 1) := (pow_succ 2 p.depth).symm
  have hyes0 : ∀ i, i < s1.dir.length → i % (2 ^ p.depth * 2) = r →
      ds.1.getD i 0 = s1.nextId := by
    intro i hi hz
    obtain ⟨hir, hb⟩ := (zone0 _ _ _ hhigh hr).mp hz
    have h2 := hin i ((hmemis i).mpr ⟨hi, hir⟩)
    rw [hb] at h2
    simpa using h2
  have hyes1 : ∀ i, i < s1.dir.length → i % (2 ^ p.depth * 2) = r + 2 ^ p.depth →
      ds.1.getD i 0 = s1.nextId + 1 := by
    intro i hi hz
    obtain ⟨hir, hb⟩ := (zone1 _ _ _ hhigh hr).mp hz
    have h2 := hin i ((hmemis i).mpr ⟨hi, hir⟩)
    rw [hb] at h2
    simpa using h2
  have hno : ∀ i, i < s1.dir.length → i % (2 ^ p.depth) ≠ r →
      ds.1.getD i 0 = s1.dir.getD i 0 := by
    intro i hi hir
    refine hout i ?_
    intro hc
    exact hir ((hmemis i).mp hc).2
  have hnotin : ∀ y, s1.nextId ≤ y → ¬ y ∈ s1.dir := by
    intro y hy hmemy
    obtain ⟨i, hilen, hgi⟩ := List.mem_iff_getElem.mp hmemy
    have hgd2 : s1.dir.getD i 0 = y := by
      rw [List.getD_eq_getElem _ _ hilen, hgi]
    obtain ⟨q, hq⟩ := hlive i hilen
    rw [hgd2] at hq
    have hlt : y < s1.nextId := hfresh (y, q) hq
    omega
  have hcnt0 : s1.dir.count s1.nextId = 0 :=
    List.count_eq_zero.mpr (hnotin _ (le_refl _))
  have hcnt1 : s1.dir.count (s1.nextId + 1) = 0 :=
    List.count_eq_zero.mpr (hnotin _ (by omega))
  have hkeys2 : ds.2.map Prod.fst = s1.store.map Prod.fst ++ [s1.nextId, s1.nextId + 1] := by
    rw [hds, ehReassign_keys, List.map_append]
    rfl
  have hnodup2 : (ds.2.map Prod.fst).Nodup := by
    rw [hkeys2, List.nodup_append]
    refine ⟨hnodup, ?_, ?_⟩
    · refine List.nodup_cons.mpr ⟨?_, List.nodup_singleton _⟩
      intro hc
      have := List.mem_singleton.mp hc
      omega
    · intro a ha hb
      obtain ⟨e, he, rfl⟩ := List.mem_map.mp ha
      have hlt := hfresh e he
      rcases List.mem_cons.mp hb with hc | hc
      · omega
      · have := List.mem_singleton.mp hc
        omega
  have hkeysrm : ((storeRemove ds.2 pid).map Prod.fst).Nodup :=
    List.Nodup.sublist (storeRemove_keys_sublist ds.2 pid) hnodup2
  have hm0 : (s1.nextId, (⟨p.depth + 1,
      ((dirIndices (2 ^ p.depth) r s1.dir.length).filter
        fun i => !ehHighBitSet i (2 ^ p.depth)).length, t0⟩ : EHPage)) ∈ ds.2 := by
    rw [hst']
    refine List.mem_map.mpr ⟨(s1.nextId, ⟨p.depth + 1, 0, t0⟩), ?_, ?_⟩
    · exact List.mem_append_right _ (List.mem_cons_self _ _)
    · simp [show s1.nextId ≠ pid from by omega]
  have hm1 : (s1.nextId + 1, (⟨p.depth + 1,
      ((dirIndices (2 ^ p.depth) r s1.dir.length).filter
        fun i => ehHighBitSet i (2 ^ p.depth)).length, t1⟩ : EHPage)) ∈ ds.2 := by
    rw [hst']
    refine List.mem_map.mpr ⟨(s1.nextId + 1, ⟨p.depth + 1, 0, t1⟩), ?_, ?_⟩
    · exact List.mem_append_right _ (List.mem_cons_of_mem _ (List.mem_cons_self _ _))
    · simp [show s1.nextId + 1 ≠ pid from by omega,
        show s1.nextId + 1 ≠ s1.nextId from by omega]
  have hmold : ∀ e, e ∈ s1.store → e.1 ≠ pid → e ∈ ds.2 := by
    intro e he hnep
    rw [hst']
    refine List.mem_map.mpr ⟨e, List.mem_append_left _ he, ?_⟩
    have hlt := hfresh e he
    have h2 : e.1 ≠ s1.nextId := by omega
    have h3 : e.1 ≠ s1.nextId + 1 := by omega
    simp [hnep, h2, h3]
  have hdest : ∀ e', e' ∈ ds.2 →
      e' = (s1.nextId, ⟨p.depth + 1,
        ((dirIndices (2 ^ p.depth) r s1.dir.length).filter
          fun i => !ehHighBitSet i (2 ^ p.depth)).length, t0⟩) ∨
      e' = (s1.nextId + 1, ⟨p.depth + 1,
        ((dirIndices (2 ^ p.depth) r s1.dir.length).filter
          fun i => ehHighBitSet i (2 ^ p.depth)).length, t1⟩) ∨
      (e' ∈ s1.store ∧ e'.1 ≠ s1.nextId ∧ e'.1 ≠ s1.nextId + 1 ∧ e'.1 ≠ pid) ∨
      e'.1 = pid := by
    intro e' he'
    rw [hst'] at he'
    obtain ⟨e0, he0, heq⟩ := List.mem_map.mp he'
    rcases List.mem_append.mp he0 with h0 | h0
    · have hf0 := hfresh e0 h0
      by_cases hp0 : e0.1 = pid
      · right; right; right
        rw [← heq]
        simp [hp0]
      · right; right; left
        have h2 : e0.1 ≠ s1.nextId := by omega
        have h3 : e0.1 ≠ s1.nextId + 1 := by omega
        have hFe : e' = e0 := by
          rw [← heq]
          simp [hp0, h2, h3]
        rw [hFe]
        exact ⟨h0, h2, h3, hp0⟩
    · rcases List.mem_cons.mp h0 with rfl | h1
      · left
        rw [← heq]
        simp [show s1.nextId ≠ pid from by omega]
      · rcases List.mem_cons.mp h1 with rfl | h2
        · right; left
          rw [← heq]
          simp [show s1.nextId + 1 ≠ pid from by omega,
            show s1.nextId + 1 ≠ s1.nextId from by omega]
        · simp at h2
  refine ⟨?_, ?_, ?_, ?_, ?_, ?_, ?_, ?_⟩
  · show ds.1.length = 2 ^ s1.depth
    rw [hlen', hlen]
  · show ((storeRemove ds.2 pid).map Prod.fst).Nodup
    exact hkeysrm
  · intro e he
    have he2 : e ∈ storeRemove ds.2 pid := he
    obtain ⟨hin2, hnp⟩ := (storeRemove_mem _ _ _).mp he2
    show e.1 < s1.nextId + 2
    rcases hdest e hin2 with h | h | h | h
    · rw [h]
      show s1.nextId < s1.nextId + 2
      omega
    · rw [h]
      show s1.nextId + 1 < s1.nextId + 2
      omega
    · have := hfresh e h.1
      omega
    · exact absurd h hnp
  · intro i hi
    show ∃ q, (ds.1.getD i 0, q) ∈ storeRemove ds.2 pid
    have hi' : i < s1.dir.length := by
      rw [← hlen']
      exact hi
    by_cases hir : i % 2 ^ p.depth = r
    · by_cases hb : ehHighBitSet i (2 ^ p.depth)
      · have hz : i % (2 ^ p.depth * 2) = r + 2 ^ p.depth :=
          (zone1 _ _ _ hhigh hr).mpr ⟨hir, hb⟩
        rw [hyes1 i hi' hz]
        exact ⟨_, (storeRemove_mem _ _ _).mpr ⟨hm1, show s1.nextId + 1 ≠ pid from by omega⟩⟩
      · have hz : i % (2 ^ p.depth * 2) = r :=
          (zone0 _ _ _ hhigh hr).mpr ⟨hir, by simpa using hb⟩
        rw [hyes0 i hi' hz]
        exact ⟨_, (storeRemove_mem _ _ _).mpr ⟨hm0, show s1.nextId ≠ pid from by omega⟩⟩
    · rw [hno i hi' hir]
      have hxp : s1.dir.getD i 0 ≠ pid := fun hc => hir ((hch i hi').mp hc)
      obtain ⟨q, hq⟩ := hlive i hi'
      exact ⟨q, (storeRemove_mem _ _ _).mpr ⟨hmold _ hq hxp, hxp⟩⟩
  · intro e he
    have he2 : e ∈ storeRemove ds.2 pid := he
    obtain ⟨hin2, hnp⟩ := (storeRemove_mem _ _ _).mp he2
    show e.2.depth ≤ s1.depth
    rcases hdest e hin2 with h | h | h | h
    · rw [h]
      show p.depth + 1 ≤ s1.depth
      omega
    · rw [h]
      show p.depth + 1 ≤ s1.depth
      omega
    · exact hdepth e h.1
    · exact absurd h hnp
  · intro e he
    have he2 : e ∈ storeRemove ds.2 pid := he
    obtain ⟨hin2, hnp⟩ := (storeRemove_mem _ _ _).mp he2
    rcases hdest e hin2 with h | h | h | h
    · refine ⟨r, ?_, ?_⟩
      · show r < ds.1.length
        rw [hlen', hlen]
        omega
      · show ds.1.getD r 0 = e.1
        rw [h]
        show ds.1.getD r 0 = s1.nextId
        refine hyes0 r ?_ ?_
        · rw [hlen]
          omega
        · exact Nat.mod_eq_of_lt (by omega)
    · refine ⟨r + 2 ^ p.depth, ?_, ?_⟩
      · show r + 2 ^ p.depth < ds.1.length
        rw [hlen', hlen]
        omega
      · show ds.1.getD (r + 2 ^ p.depth) 0 = e.1
        rw [h]
        show ds.1.getD (r + 2 ^ p.depth) 0 = s1.nextId + 1
        refine hyes1 (r + 2 ^ p.depth) ?_ ?_
        · rw [hlen]
          omega
        · exact Nat.mod_eq_of_lt (by omega)
    · obtain ⟨i, hi, hgi⟩ := href e h.1
      refine ⟨i, ?_, ?_⟩
      · show i < ds.1.length
        rw [hlen']
        exact hi
      · have hirne : i % 2 ^ p.depth ≠ r := by
          intro hc
          have hpidc : s1.dir.getD i 0 = pid := (hch i hi).mpr hc
          rw [hgi] at hpidc
          exact h.2.2.2 hpidc
        show ds.1.getD i 0 = e.1
        rw [hno i hi hirne]
        exact hgi
    · exact absurd h hnp
  · intro e he
    have he2 : e ∈ storeRemove ds.2 pid := he
    obtain ⟨hin2, hnp⟩ := (storeRemove_mem _ _ _).mp he2
    show e.2.refs = ds.1.count e.1
    rcases hdest e hin2 with h | h | h | h
    · have he1 : e.1 = s1.nextId := by rw [h]
      have hrf : e.2.refs = ((dirIndices (2 ^ p.depth) r s1.dir.length).filter
          fun i => !ehHighBitSet i (2 ^ p.depth)).length := by rw [h]
      rw [he1, hrf, hc0', hcnt0]
      omega
    · have he1 : e.1 = s1.nextId + 1 := by rw [h]
      have hrf : e.2.refs = ((dirIndices (2 ^ p.depth) r s1.dir.length).filter
          fun i => ehHighBitSet i (2 ^ p.depth)).length := by rw [h]
      rw [he1, hrf, hc1', hcnt1]
      omega
    · rw [hrefs e h.1]
      exact (hcx' e.1 h.2.2.2 h.2.1 h.2.2.1).symm
    · exact absurd h hnp
  · intro i hi j hj
    have hi' : i < s1.dir.length := by rw [← hlen']; exact hi
    have hj' : j < s1.dir.length := by rw [← hlen']; exact hj
    have hsg0 : storeGet (storeRemove ds.2 pid) s1.nextId = ⟨p.depth + 1,
        ((dirIndices (2 ^ p.depth) r s1.dir.length).filter
          fun i => !ehHighBitSet i (2 ^ p.depth)).length, t0⟩ :=
      mem_storeGet_eq _ _ hkeysrm
        ((storeRemove_mem _ _ _).mpr ⟨hm0, show s1.nextId ≠ pid from by omega⟩)
    have hsg1 : storeGet (storeRemove ds.2 pid) (s1.nextId + 1) = ⟨p.depth + 1,
        ((dirIndices (2 ^ p.depth) r s1.dir.length).filter
          fun i => ehHighBitSet i (2 ^ p.depth)).length, t1⟩ :=
      mem_storeGet_eq _ _ hkeysrm
        ((storeRemove_mem _ _ _).mpr ⟨hm1, show s1.nextId + 1 ≠ pid from by omega⟩)
    have hsgold : ∀ x q, (x, q) ∈ s1.store → x ≠ pid →
        storeGet (storeRemove ds.2 pid) x = q := by
      intro x q hq hnx
      exact mem_storeGet_eq _ (x, q) hkeysrm
        ((storeRemove_mem _ _ _).mpr ⟨hmold _ hq hnx, hnx⟩)
    show ds.1.getD j 0 = ds.1.getD i 0 ↔
      j % 2 ^ (storeGet (storeRemove ds.2 pid) (ds.1.getD i 0)).depth =
        i % 2 ^ (storeGet (storeRemove ds.2 pid) (ds.1.getD i 0)).depth
    by_cases hir : i % 2 ^ p.depth = r
    · by_cases hb : ehHighBitSet i (2 ^ p.depth)
      · have hz : i % (2 ^ p.depth * 2) = r + 2 ^ p.depth :=
          (zone1 _ _ _ hhigh hr).mpr ⟨hir, hb⟩
        have hgi : ds.1.getD i 0 = s1.nextId + 1 := hyes1 i hi' hz
        rw [hgi, hsg1]
        show ds.1.getD j 0 = s1.nextId + 1 ↔
          j % 2 ^ (p.depth + 1) = i % 2 ^ (p.depth + 1)
        rw [← h2h, hz]
        constructor
        · intro hgj
          by_cases hjr : j % 2 ^ p.depth = r
          · by_cases hjb : ehHighBitSet j (2 ^ p.depth)
            · exact (zone1 _ _ _ hhigh hr).mpr ⟨hjr, hjb⟩
            · have hg0 := hyes0 j hj' ((zone0 _ _ _ hhigh hr).mpr ⟨hjr, by simpa using hjb⟩)
              rw [hgj] at hg0
              omega
          · have hgj2 := hno j hj' hjr
            rw [hgj2] at hgj
            obtain ⟨q, hq⟩ := hlive j hj'
            rw [hgj] at hq
            have hlt : s1.nextId + 1 < s1.nextId := hfresh (s1.nextId + 1, q) hq
            omega
        · intro hmod
          exact hyes1 j hj' hmod
      · have hz : i % (2 ^ p.depth * 2) = r :=
          (zone0 _ _ _ hhigh hr).mpr ⟨hir, by simpa using hb⟩
        have hgi : ds.1.getD i 0 = s1.nextId := hyes0 i hi' hz
        rw [hgi, hsg0]
        show ds.1.getD j 0 = s1.nextId ↔
          j % 2 ^ (p.depth + 1) = i % 2 ^ (p.depth + 1)
        rw [← h2h, hz]
        constructor
        · intro hgj
          by_cases hjr : j % 2 ^ p.depth = r
          · by_cases hjb : ehHighBitSet j (2 ^ p.depth)
            · have hg1 := hyes1 j hj' ((zone1 _ _ _ hhigh hr).mpr ⟨hjr, hjb⟩)
              rw [hgj] at hg1
              omega
            · exact (zone0 _ _ _ hhigh hr).mpr ⟨hjr, by simpa using hjb⟩
          · have hgj2 := hno j hj' hjr
            rw [hgj2] at hgj
            obtain ⟨q, hq⟩ := hlive j hj'
            rw [hgj] at hq
            have hlt : s1.nextId < s1.nextId := hfresh (s1.nextId, q) hq
            omega
        · intro hmod
          exact hyes0 j hj' hmod
    · have hgi : ds.1.getD i 0 = s1.dir.getD i 0 := hno i hi' hir
      have hxp : s1.dir.getD i 0 ≠ pid := fun hc => hir ((hch i hi').mp hc)
      obtain ⟨q, hq⟩ := hlive i hi'
      have hsgq : storeGet (storeRemove ds.2 pid) (s1.dir.getD i 0) = q :=
        hsgold _ q hq hxp
      rw [hgi, hsgq]
      have hq1 : (ehPageAt s1 i).depth = q.depth := by
        show (storeGet s1.store (s1.dir.getD i 0)).depth = q.depth
        rw [mem_storeGet_eq s1.store (s1.dir.getD i 0, q) hnodup hq]
      have hpati := hpat i hi' j hj'
      rw [hq1] at hpati
      have hxlt : s1.dir.getD i 0 < s1.nextId := hfresh (s1.dir.getD i 0, q) hq
      constructor
      · intro hgj
        by_cases hjr : j % 2 ^ p.depth = r
        · by_cases hjb : ehHighBitSet j (2 ^ p.depth)
          · have hg1 := hyes1 j hj' ((zone1 _ _ _ hhigh hr).mpr ⟨hjr, hjb⟩)
            rw [hg1] at hgj
            omega
          · have hg0 := hyes0 j hj' ((zone0 _ _ _ hhigh hr).mpr ⟨hjr, by simpa using hjb⟩)
            rw [hg0] at hgj
            omega
        · have hgj2 := hno j hj' hjr
          rw [hgj2] at hgj
          exact hpati.mp hgj
      · intro hmod
        have hgj := hpati.mpr hmod
        have hjr : j % 2 ^ p.depth ≠ r := by
          intro hc
          have hpidc : s1.dir.getD j 0 = pid := (hch j hj').mpr hc
          rw [hgj] at hpidc
          exact hxp hpidc
        rw [hno j hj' hjr]
        exact hgj

theorem ehNoSplit_inv (s : EHTable) (inv : EHInv s) (pid : Nat) (f : EHPage → EHPage)
    (hdepf : ∀ q, (f q).depth = q.depth) (hreff : ∀ q, (f q).refs = q.refs) :
    EHInv { s with store := storeMap s.store pid f } := by
  obtain ⟨hlen, hnodup, hfresh, hlive, hdepth, href, hrefs, hpat⟩ := inv
  refine ⟨?_, ?_, ?_, ?_, ?_, ?_, ?_, ?_⟩
  · exact hlen
  · show ((storeMap s.store pid f).map Prod.fst).Nodup
    rw [storeMap_keys]
    exact hnodup
  · intro e he
    have he2 : e ∈ storeMap s.store pid f := he
    unfold storeMap at he2
    obtain ⟨e0, he0, rfl⟩ := List.mem_map.mp he2
    show (if e0.1 = pid then (e0.1, f e0.2) else e0).1 < s.nextId
    by_cases h : e0.1 = pid
    · rw [if_pos h]
      exact hfresh e0 he0
    · rw [if_neg h]
      exact hfresh e0 he0
  · intro i hi
    have hi' : i < s.dir.length := hi
    obtain ⟨q, hq⟩ := hlive i hi'
    show ∃ p2, (s.dir.getD i 0, p2) ∈ storeMap s.store pid f
    unfold storeMap
    have hmm := List.mem_map_of_mem
      (fun e : Nat × EHPage => if e.1 = pid then (e.1, f e.2) else e) hq
    have hmm2 : (if s.dir.getD i 0 = pid then (s.dir.getD i 0, f q)
        else (s.dir.getD i 0, q)) ∈
        s.store.map fun e => if e.1 = pid then (e.1, f e.2) else e := hmm
    by_cases h : s.dir.getD i 0 = pid
    · rw [if_pos h] at hmm2
      exact ⟨f q, hmm2⟩
    · rw [if_neg h] at hmm2
      exact ⟨q, hmm2⟩
  · intro e he
    have he2 : e ∈ storeMap s.store pid f := he
    unfold storeMap at he2
    obtain ⟨e0, he0, rfl⟩ := List.mem_map.mp he2
    show (if e0.1 = pid then (e0.1, f e0.2) else e0).2.depth ≤ s.depth
    by_cases h : e0.1 = pid
    · rw [if_pos h]
      show (f e0.2).depth ≤ s.depth
      rw [hdepf]
      exact hdepth e0 he0
    · rw [if_neg h]
      exact hdepth e0 he0
  · intro e he
    have he2 : e ∈ storeMap s.store pid f := he
    unfold storeMap at he2
    obtain ⟨e0, he0, rfl⟩ := List.mem_map.mp he2
    obtain ⟨i, hi, hgi⟩ := href e0 he0
    refine ⟨i, hi, ?_⟩
    show s.dir.getD i 0 = (if e0.1 = pid then (e0.1, f e0.2) else e0).1
    by_cases h : e0.1 = pid
    · rw [if_pos h]
      exact hgi
    · rw [if_neg h]
      exact hgi
  · intro e he
    have he2 : e ∈ storeMap s.store pid f := he
    unfold storeMap at he2
    obtain ⟨e0, he0, rfl⟩ := List.mem_map.mp he2
    show (if e0.1 = pid then (e0.1, f e0.2) else e0).2.refs =
      s.dir.count (if e0.1 = pid then (e0.1, f e0.2) else e0).1
    by_cases h : e0.1 = pid
    · rw [if_pos h]
      show (f e0.2).refs = s.dir.count e0.1
      rw [hreff]
      exact hrefs e0 he0
    · rw [if_neg h]
      exact hrefs e0 he0
  · intro i hi j hj
    show s.dir.getD j 0 = s.dir.getD i 0 ↔
      j % 2 ^ (storeGet (storeMap s.store pid f) (s.dir.getD i 0)).depth =
        i % 2 ^ (storeGet (storeMap s.store pid f) (s.dir.getD i 0)).depth
    have hdep2 : (storeGet (storeMap s.store pid f) (s.dir.getD i 0)).depth =
        (storeGet s.store (s.dir.getD i 0)).depth := by
      by_cases h : pid = s.dir.getD i 0
      · obtain ⟨q, hq⟩ := hlive i hi
        have hmemk : s.dir.getD i 0 ∈ s.store.map Prod.fst :=
          List.mem_map.mpr ⟨_, hq, rfl⟩
        rw [← h] at hmemk
        rw [← h, storeGet_storeMap_self s.store pid f hmemk, hdepf]
      · rw [storeGet_storeMap_ne s.store pid _ f h]
    rw [hdep2]
    exact hpat i hi j hj

theorem ehInit_inv : EHInv ehInit := by
  refine ⟨rfl, by decide, ?_, ?_, ?_, ?_, ?_, ?_⟩
  · intro e he
    rcases List.mem_singleton.mp he with rfl
    show (0 : Nat) < 1
    omega
  · intro i hi
    have hi' : i < 1 := hi
    have h0 : i = 0 := by omega
    subst h0
    exact ⟨⟨0, 1, ftInit⟩, List.mem_singleton.mpr rfl⟩
  · intro e he
    rcases List.mem_singleton.mp he with rfl
    show (0 : Nat) ≤ 0
    omega
  · intro e he
    rcases List.mem_singleton.mp he with rfl
    exact ⟨0, Nat.zero_lt_one, rfl⟩
  · intro e he
    rcases List.mem_singleton.mp he with rfl
    show (1 : Nat) = List.count 0 [0]
    decide
  · intro i hi j hj
    have hi' : i < 1 := hi
    have hj' : j < 1 := hj
    have h0 : i = 0 := by omega
    have h1 : j = 0 := by omega
    subst h0
    subst h1
    simp

theorem ehInsert_inv (s : EHTable) (k : Nat) (inv : EHInv s) : EHInv (ehInsert s k) := by
  have hlen0 := inv.hlen
  have hr0 : ehPageIndex s.depth (ehHash k) < s.dir.length := by
    rw [hlen0]
    exact Nat.mod_lt _ (pow_pos (by omega) _)
  obtain ⟨p0, hp0⟩ := inv.hlive _ hr0
  have hsg : storeGet s.store (s.dir.getD (ehPageIndex s.depth (ehHash k)) 0) = p0 :=
    mem_storeGet_eq _ _ inv.hnodup hp0
  simp only [ehInsert]
  by_cases hth : (storeGet s.store
      (s.dir.getD (ehPageIndex s.depth (ehHash k)) 0)).table.size ≥ ehP * 3 / 4
  · rw [if_pos hth, hsg]
    by_cases hpd : p0.depth = s.depth
    · rw [if_pos hpd]
      have hpd0 : p0.depth = s.depth := hpd
      have hdinv := ehDouble_inv s inv
      have hgd0 : (s.dir ++ s.dir).getD (ehPageIndex s.depth (ehHash k)) 0 =
          s.dir.getD (ehPageIndex s.depth (ehHash k)) 0 :=
        List.getD_append _ _ _ _ hr0
      have hr0' : ehPageIndex s.depth (ehHash k) < (s.dir ++ s.dir).length := by
        rw [List.length_append]
        omega
      have hf2 : ∀ e : Nat × EHPage,
          ((fun e : Nat × EHPage =>
            (e.1, { e.2 with refs := e.2.refs + s.dir.count e.1 })) e).1 = e.1 :=
        fun e => rfl
      have hmemk : s.dir.getD (ehPageIndex s.depth (ehHash k)) 0 ∈ s.store.map Prod.fst :=
        List.mem_map.mpr ⟨_, hp0, rfl⟩
      have hpage : storeGet (bumpRefs s.store s.dir)
          ((s.dir ++ s.dir).getD (ehPageIndex s.depth (ehHash k)) 0) =
          { p0 with refs := p0.refs +
              s.dir.count (s.dir.getD (ehPageIndex s.depth (ehHash k)) 0) } := by
        rw [hgd0, bumpRefs_eq_map, storeGet_map_fst _ hf2 _ _ hmemk, hsg]
      refine ehSplit_inv ⟨s.depth + 1, s.dir ++ s.dir, bumpRefs s.store s.dir, s.nextId⟩
        (s.dir.getD (ehPageIndex s.depth (ehHash k)) 0)
        ({ p0 with refs := p0.refs +
            s.dir.count (s.dir.getD (ehPageIndex s.depth (ehHash k)) 0) })
        (ehHash k % 2 ^ p0.depth) _ _ _ hdinv ?_ ?_ ?_ ?_ rfl
      · show (s.dir.getD (ehPageIndex s.depth (ehHash k)) 0,
          ({ p0 with refs := p0.refs +
            s.dir.count (s.dir.getD (ehPageIndex s.depth (ehHash k)) 0) } : EHPage)) ∈
          bumpRefs s.store s.dir
        rw [bumpRefs_eq_map]
        exact List.mem_map_of_mem _ hp0
      · show p0.depth < s.depth + 1
        omega
      · show ehHash k % 2 ^ p0.depth < 2 ^ p0.depth
        exact Nat.mod_lt _ (pow_pos (by omega) _)
      · intro i hi2
        have hp2 := hdinv.hpat (ehPageIndex s.depth (ehHash k)) hr0' i hi2
        rw [hgd0] at hp2
        have hdepeq : (ehPageAt ⟨s.depth + 1, s.dir ++ s.dir, bumpRefs s.store s.dir,
            s.nextId⟩ (ehPageIndex s.depth (ehHash k))).depth = p0.depth := by
          show (storeGet (bumpRefs s.store s.dir)
            ((s.dir ++ s.dir).getD (ehPageIndex s.depth (ehHash k)) 0)).depth = p0.depth
          rw [hpage]
        rw [hdepeq] at hp2
        have hmodeq : ehPageIndex s.depth (ehHash k) % 2 ^ p0.depth =
            ehHash k % 2 ^ p0.depth := by
          show ehHash k % 2 ^ s.depth % 2 ^ p0.depth = ehHash k % 2 ^ p0.depth
          exact Nat.mod_mod_of_dvd _ (pow_dvd_pow 2 (by omega))
        rw [hmodeq] at hp2
        exact hp2
    · rw [if_neg hpd]
      have hle : p0.depth ≤ s.depth := inv.hdepth (_, p0) hp0
      refine ehSplit_inv s (s.dir.getD (ehPageIndex s.depth (ehHash k)) 0) p0
        (ehHash k % 2 ^ p0.depth) _ _ _ inv hp0 ?_ ?_ ?_ rfl
      · omega
      · exact Nat.mod_lt _ (pow_pos (by omega) _)
      · intro i hi2
        have hp2 := inv.hpat (ehPageIndex s.depth (ehHash k)) hr0 i hi2
        have hdepeq : (ehPageAt s (ehPageIndex s.depth (ehHash k))).depth = p0.depth := by
          show (storeGet s.store
            (s.dir.getD (ehPageIndex s.depth (ehHash k)) 0)).depth = p0.depth
          rw [hsg]
        rw [hdepeq] at hp2
        have hmodeq : ehPageIndex s.depth (ehHash k) % 2 ^ p0.depth =
            ehHash k % 2 ^ p0.depth := by
          show ehHash k % 2 ^ s.depth % 2 ^ p0.depth = ehHash k % 2 ^ p0.depth
          exact Nat.mod_mod_of_dvd _ (pow_dvd_pow 2 hle)
        rw [hmodeq] at hp2
        exact hp2
  · rw [if_neg hth]
    exact ehNoSplit_inv s inv _ _ (fun q => rfl) (fun q => rfl)

theorem ehInsertSeq_inv (ks : List Nat) : EHInv (ehInsertSeq ehInit ks) := by
  show EHInv (List.foldl ehInsert ehInit ks)
  suffices h : ∀ s, EHInv s → EHInv (List.foldl ehInsert s ks) from h ehInit ehInit_inv
  induction ks with
  | nil =>
    intro s hs
    exact hs
  | cons a ks ih =>
    intro s hs
    exact ih (ehInsert s a) (ehInsert_inv s a hs)

/-- C6: structural invariant of the extendible hash table.  After any sequence of
inserts into the fresh table, every live page's local depth is at most the global
depth, every live page id occurs in exactly 2^(global depth - local depth)
directory entries, and the reference counts of the live pages sum to
2^(global depth), the directory length. -/
theorem C6_eh_structural_invariants (ks : List Nat) :
    (∀ e ∈ (ehInsertSeq ehInit ks).store,
        e.2.depth ≤ (ehInsertSeq ehInit ks).depth) ∧
    (∀ e ∈ (ehInsertSeq ehInit ks).store,
        (ehInsertSeq ehInit ks).dir.count e.1 =
          2 ^ ((ehInsertSeq ehInit ks).depth - e.2.depth)) ∧
    refsSum (ehInsertSeq ehInit ks).store = 2 ^ (ehInsertSeq ehInit ks).depth ∧
    (ehInsertSeq ehInit ks).dir.length = 2 ^ (ehInsertSeq ehInit ks).depth := by
  obtain ⟨hlen, hnodup, hfresh, hlive, hdepth, href, hrefs, hpat⟩ := ehInsertSeq_inv ks
  refine ⟨hdepth, ?_, ?_, hlen⟩
  · intro e he
    obtain ⟨i, hi, hgi⟩ := href e he
    have hdep : (ehPageAt (ehInsertSeq ehInit ks) i).depth = e.2.depth := by
      show (storeGet (ehInsertSeq ehInit ks).store
        ((ehInsertSeq ehInit ks).dir.getD i 0)).depth = e.2.depth
      rw [hgi, mem_storeGet_eq _ e hnodup he]
    rw [← hgi, count_eq_pos_count]
    have hcong : ((List.range (ehInsertSeq ehInit ks).dir.length).filter
        fun j => (ehInsertSeq ehInit ks).dir.getD j 0 =
          (ehInsertSeq ehInit ks).dir.getD i 0) =
        ((List.range (ehInsertSeq ehInit ks).dir.length).filter
          fun j => j % 2 ^ e.2.depth = i % 2 ^ e.2.depth) := by
      refine List.filter_congr ?_
      intro j hj
      have hjlen := List.mem_range.mp hj
      have hpt := hpat i hi j hjlen
      rw [hdep] at hpt
      exact decide_eq_decide.mpr hpt
    rw [hcong]
    have hdlep : e.2.depth ≤ (ehInsertSeq ehInit ks).depth := hdepth e he
    have hlen2 : (ehInsertSeq ehInit ks).dir.length =
        2 ^ ((ehInsertSeq ehInit ks).depth - e.2.depth) * 2 ^ e.2.depth := by
      rw [hlen, ← pow_add]
      congr 1
      omega
    rw [hlen2]
    exact count_residues _ _ _ (Nat.mod_lt _ (pow_pos (by omega) _))
  · have hd : ∀ a ∈ (ehInsertSeq ehInit ks).dir,
        a ∈ (ehInsertSeq ehInit ks).store.map Prod.fst := by
      intro a ha
      obtain ⟨i, hilen, hgi⟩ := List.mem_iff_getElem.mp ha
      have hgd2 : (ehInsertSeq ehInit ks).dir.getD i 0 = a := by
        rw [List.getD_eq_getElem _ _ hilen, hgi]
      obtain ⟨q, hq⟩ := hlive i hilen
      rw [hgd2] at hq
      exact List.mem_map.mpr ⟨(a, q), hq, rfl⟩
    have h1 : ((ehInsertSeq ehInit ks).store.map fun e => e.2.refs) =
        (ehInsertSeq ehInit ks).store.map
          fun e => (ehInsertSeq ehInit ks).dir.count e.1 :=
      List.map_congr_left fun e he => hrefs e he
    have h2 : ((ehInsertSeq ehInit ks).store.map
        fun e => (ehInsertSeq ehInit ks).dir.count e.1).sum =
        (((ehInsertSeq ehInit ks).store.map Prod.fst).map
          fun x => (ehInsertSeq ehInit ks).dir.count x).sum := by
      rw [List.map_map]
      rfl
    show ((ehInsertSeq ehInit ks).store.map fun e => e.2.refs).sum =
      2 ^ (ehInsertSeq ehInit ks).depth
    rw [h1, h2, sum_counts _ hnodup _ hd, hlen]

theorem C6_witness :
    refsSum (ehInsertSeq ehInit [5, 6]).store = 2 ^ (ehInsertSeq ehInit [5, 6]).depth :=
  (C6_eh_structural_invariants [5, 6]).2.2.1
